import Mathlib

/-!
# Verification of the order-statistics B-tree (`src/btree_intrusive.h`)

Shallow embedding of `IntrusiveBTree<K, V, ORDER, Cmp>` specialised to
`K = V = Int`, `Cmp = std::less<Int>` (the comparator used by every scenario in
the specification; `traverse` compares keys against the `int` sentinel `-1`, so
integer keys are the intended instantiation).  `ORDER` is kept as an explicit
parameter `O`.

Modelling conventions:
* A node is `leaf kvs sz` or `node kvs sz ch`; `kvs` mirrors the parallel
  `keys[]`/`vals[]` arrays restricted to the `len` live slots (so `len` is
  `kvs.length`), `sz` mirrors the `size` augmentation field (kept as `Int`;
  the C++ field is `unsigned`, and no scenario in this development approaches
  wrap-around), and `ch` mirrors the live `children[0..len]` slots.
* Parent pointers are represented structurally: the C++ code only ever uses
  `parent` to walk from a node to its enclosing ancestors, which the
  recursive functions below do by returning updated subtrees to their caller.
* Reads the C++ leaves undefined (reading a key of an empty node inside
  `getPredecessor`/`getSuccessor`, or `fill`'s `merge(node, idx - 1)` with
  `idx = 0`) are modelled as `Except.error`; everywhere else the C++
  behaviour is defined and is mirrored exactly, including the stale-slot
  read `node->keys[0]` in `removeFromLeaf` after the node became empty
  (the slot then still holds the key that was just removed).
-/

namespace BTreeIntrusive

/-- A key/value entry (the C++ stores keys and values in parallel arrays). -/
abbrev Entry := Int × Int

/-- A B-tree node: `BTreeLeaf` or `BTreeNode` from the source.  `kvs` are the
live key/value slots (so `len = kvs.length`), `sz` is the stored `size`
augmentation field, `ch` the live children of an internal node. -/
inductive BT : Type where
  | leaf (kvs : List Entry) (sz : Int)
  | node (kvs : List Entry) (sz : Int) (ch : List BT)
deriving Repr

/-- Default node used where the C++ would dereference a pointer slot that the
model does not populate (never reached on well-formed trees). -/
def dflt : BT := .leaf [] 0

/-- The live key/value slots of a node. -/
def kvsOf : BT → List Entry
  | .leaf kvs _ => kvs
  | .node kvs _ _ => kvs

/-- `len` field: number of live key slots. -/
def lenOf (t : BT) : Nat := (kvsOf t).length

/-- Stored `size` augmentation field. -/
def sizeB : BT → Int
  | .leaf _ sz => sz
  | .node _ sz _ => sz

/-- Children of an internal node (empty for a leaf). -/
def chOf : BT → List BT
  | .leaf _ _ => []
  | .node _ _ ch => ch

/-- `isLeaf` discriminant. -/
def isLeafB : BT → Bool
  | .leaf _ _ => true
  | .node _ _ _ => false

mutual
/-- Boolean equality of trees (the automatic derivation is not available for
this nested inductive). -/
def beqBT : BT → BT → Bool
  | .leaf k1 s1, .leaf k2 s2 => k1 == k2 && s1 == s2
  | .node k1 s1 c1, .node k2 s2 c2 => k1 == k2 && s1 == s2 && beqBTList c1 c2
  | _, _ => false
termination_by structural t => t

/-- Boolean equality of tree lists. -/
def beqBTList : List BT → List BT → Bool
  | [], [] => true
  | a :: as, b :: bs => beqBT a b && beqBTList as bs
  | _, _ => false
termination_by structural l => l
end

mutual
theorem beqBT_iff : ∀ a b : BT, beqBT a b = true ↔ a = b
  | .leaf k1 s1, .leaf k2 s2 => by simp [beqBT]
  | .leaf _ _, .node _ _ _ => by simp [beqBT]
  | .node _ _ _, .leaf _ _ => by simp [beqBT]
  | .node k1 s1 c1, .node k2 s2 c2 => by
      simp [beqBT, beqBTList_iff c1 c2, and_assoc]
termination_by structural a => a

theorem beqBTList_iff : ∀ as bs : List BT, beqBTList as bs = true ↔ as = bs
  | [], [] => by simp [beqBTList]
  | [], _ :: _ => by simp [beqBTList]
  | _ :: _, [] => by simp [beqBTList]
  | a :: as, b :: bs => by
      simp [beqBTList, beqBT_iff a b, beqBTList_iff as bs]
termination_by structural as => as
end

instance : DecidableEq BT := fun a b => decidable_of_iff _ (beqBT_iff a b)

instance {e a : Type} [DecidableEq e] [DecidableEq a] : DecidableEq (Except e a) :=
  fun x y =>
    match x, y with
    | .ok x, .ok y => decidable_of_iff (x = y) (by simp)
    | .error u, .error v => decidable_of_iff (u = v) (by simp)
    | .ok _, .error _ => isFalse (by simp)
    | .error _, .ok _ => isFalse (by simp)

mutual
/-- Height of a tree (a leaf has height 0); used to size the fuel of the
descending operations. -/
def heightB : BT → Nat
  | .leaf _ _ => 0
  | .node _ _ ch => heightList ch + 1
termination_by structural t => t

/-- Maximum height of a list of trees. -/
def heightList : List BT → Nat
  | [] => 0
  | c :: cs => max (heightB c) (heightList cs)
termination_by structural l => l
end

mutual
/-- In-order key/value sequence of the tree (the order in which `doTraverse`
visits entries). -/
def toListB : BT → List Entry
  | .leaf kvs _ => kvs
  | .node kvs _ ch => interleave kvs ch
termination_by structural t => t

/-- In-order sequence of an internal node: children interleaved with
separators, then the trailing child (on a well-shaped node the child list has
one more element than the separator list; the other cases keep the function
total). -/
def interleave : List Entry → List BT → List Entry
  | [], [] => []
  | [], c :: _ => toListB c
  | e :: kvs, [] => e :: kvs
  | e :: kvs, c :: ch => toListB c ++ e :: interleave kvs ch
termination_by structural kvs ch => ch
end

/-- `BTreeLeaf::locate`: index of the first live slot whose key is not less
than `key` (`node.length` when there is none); a literal transcription of the
`std::find_if` over `!Cmp()(k, key)`. -/
def locate (kvs : List Entry) (key : Int) : Nat :=
  kvs.findIdx fun e => !decide (e.1 < key)

/-- Failure conditions of the mutating operations.  `fuel` is a model
artefact (the C++ recursions are unbounded); `assertFail` marks a read of an
uninitialised key slot behind a failing `assert` (`getPredecessor` /
`getSuccessor` on an empty node); `oob` marks an out-of-bounds array access
(`fill`'s `merge(node, idx - 1)` with unsigned `idx = 0`, or writing past the
fixed `ORDER - 1` key slots). -/
inductive Err : Type where
  | fuel
  | assertFail
  | oob
deriving Repr, DecidableEq

/-- `IntrusiveBTree::splitChild(parent, idx)`: split the full child at `idx`
(`len = O - 1`) of the parent described by `(kvs, ch)`, promoting the median
key `child.keys[O/2 - 1]` into the parent.  Returns the parent's new key and
child lists; the parent's `size` field is untouched by the C++ code. -/
def splitChild (O : Nat) (kvs : List Entry) (ch : List BT) (idx : Nat) :
    List Entry × List BT :=
  let c := ch.getD idx dflt
  let median := (kvsOf c).getD (O / 2 - 1) (0, 0)
  let rightKvs := (kvsOf c).drop (O / 2)
  let leftKvs := (kvsOf c).take (O / 2 - 1)
  match c with
  | .leaf _ csz =>
      let newChild : BT := .leaf rightKvs ((O : Int) - 1 - (O / 2 : Nat))
      let left : BT := .leaf leftKvs (csz - (sizeB newChild + 1))
      (kvs.insertIdx idx median, ((ch.set idx left).insertIdx (idx + 1) newChild))
  | .node _ csz cch =>
      let rightCh := cch.drop (O / 2)
      let agg : Int := (rightCh.map sizeB).sum
      let newChild : BT := .node rightKvs (((O : Int) - 1 - (O / 2 : Nat)) + agg) rightCh
      let left : BT := .node leftKvs (csz - (sizeB newChild + 1)) (cch.take (O / 2))
      (kvs.insertIdx idx median, ((ch.set idx left).insertIdx (idx + 1) newChild))

/-- `IntrusiveBTree::insertNonFull`: insert `(k, v)` into a node that is not
full, splitting a full child before descending into it.  A leaf that is
already at capacity would make the C++ write past the `ORDER - 1` key slots,
modelled as `Err.oob` (unreachable from reachable trees). -/
def insertNonFull (O : Nat) : Nat → BT → Int → Int → Except Err BT
  | 0, _, _, _ => .error .fuel
  | fuel + 1, t, k, v =>
    match t with
    | .leaf kvs sz =>
        if kvs.length ≥ O - 1 then .error .oob
        else pure (.leaf (kvs.insertIdx (locate kvs k) (k, v)) (sz + 1))
    | .node kvs sz ch => do
        let idx := locate kvs k
        if lenOf (ch.getD idx dflt) = O - 1 then
          let (kvs', ch') := splitChild O kvs ch idx
          let idx' := if decide ((kvs'.getD idx (0, 0)).1 < k) then idx + 1 else idx
          let c' ← insertNonFull O fuel (ch'.getD idx' dflt) k v
          pure (.node kvs' (sz + 1) (ch'.set idx' c'))
        else do
          let c' ← insertNonFull O fuel (ch.getD idx dflt) k v
          pure (.node kvs (sz + 1) (ch.set idx c'))

/-- `IntrusiveBTree::insert(key, val)`: split the root first when it is full
(`len = O - 1`), then insert into the non-full tree. -/
def insertB (O : Nat) (t : BT) (k v : Int) : Except Err BT :=
  if lenOf t = O - 1 then
    let (kvs', ch') := splitChild O [] [t] 0
    insertNonFull O (heightB t + 2) (.node kvs' (sizeB t) ch') k v
  else
    insertNonFull O (heightB t + 1) t k v

/-- `IntrusiveBTree::doFind`: descend from `t`; a valid cursor exposes the
matched key slot and its value, an invalid cursor is `none`. -/
def doFind : Nat → BT → Int → Except Err (Option Entry)
  | 0, _, _ => .error .fuel
  | fuel + 1, t, k =>
    let kvs := kvsOf t
    let idx := locate kvs k
    if idx < kvs.length ∧ ¬(k < (kvs.getD idx (0, 0)).1) then
      pure (some (kvs.getD idx (0, 0)))
    else
      match t with
      | .leaf _ _ => pure none
      | .node _ _ ch => doFind fuel (ch.getD idx dflt) k

/-- `IntrusiveBTree::find(key)` (the fuel `heightB t + 1` always suffices). -/
def findB (t : BT) (k : Int) : Option Entry :=
  match doFind (heightB t + 1) t k with
  | .ok r => r
  | .error _ => none

/-- One iteration of the `getRank` loop: accumulate the located index, the
sizes of the children strictly to the left, and — on an exact match in an
internal node — the size of the child at the located index. -/
def rankAux : Nat → BT → Int → Int → Except Err Int
  | 0, _, _, _ => .error .fuel
  | fuel + 1, t, k, acc =>
    let kvs := kvsOf t
    let idx := locate kvs k
    let acc := acc + (idx : Int) +
      (match t with
       | .leaf _ _ => 0
       | .node _ _ ch => (((ch.take idx).map sizeB).sum))
    if idx < kvs.length ∧ ¬(k < (kvs.getD idx (0, 0)).1) then
      pure (acc + (match t with
        | .leaf _ _ => 0
        | .node _ _ ch => sizeB (ch.getD idx dflt)))
    else
      match t with
      | .leaf _ _ => pure acc
      | .node _ _ ch => rankAux fuel (ch.getD idx dflt) k acc

/-- `IntrusiveBTree::getRank(key)` (fuel always suffices on real trees). -/
def rankB (t : BT) (k : Int) : Int :=
  match rankAux (heightB t + 1) t k 0 with
  | .ok r => r
  | .error _ => 0

/-- `IntrusiveBTree::size()`: the root's stored aggregate. -/
def sizeQ (t : BT) : Int := sizeB t

/-- `IntrusiveBTree::merge(node, idx)`: absorb the separator at `idx` and the
right sibling into `children[idx]`; the parent's `size` field stays put.  A
combined length beyond the `ORDER - 1` key slots would make the C++ write out
of bounds, modelled as `Err.oob` (its call sites only reach that from states
the debug-build asserts already reject). -/
def mergeAt (O : Nat) (kvs : List Entry) (ch : List BT) (idx : Nat) :
    Except Err (List Entry × List BT) :=
  let c := ch.getD idx dflt
  let s := ch.getD (idx + 1) dflt
  let sep := kvs.getD idx (0, 0)
  if lenOf c + 1 + lenOf s > O - 1 then .error .oob
  else
    let merged : BT :=
      match c with
      | .leaf ckvs csz => .leaf (ckvs ++ sep :: kvsOf s) (csz + sizeB s + 1)
      | .node ckvs csz cch =>
          .node (ckvs ++ sep :: kvsOf s) (csz + sizeB s + 1)
            (cch ++ (chOf s).take ((kvsOf s).length + 1))
    pure (kvs.eraseIdx idx, (ch.set idx merged).eraseIdx (idx + 1))

/-- `IntrusiveBTree::borrowFromPrev(node, idx)`: rotate the last entry of the
left sibling through the parent into the front of `children[idx]`.  A child
already holding `ORDER - 1` keys would make the C++ shift past the key array,
modelled as `Err.oob` (only reachable when `fill` was invoked on a wrongly
located index, which needs an unsorted tree). -/
def borrowFromPrev (O : Nat) (kvs : List Entry) (ch : List BT) (idx : Nat) :
    Except Err (List Entry × List BT) :=
  let c := ch.getD idx dflt
  let s := ch.getD (idx - 1) dflt
  let sep := kvs.getD (idx - 1) (0, 0)
  let slen := (kvsOf s).length
  let lastE := (kvsOf s).getD (slen - 1) (0, 0)
  let kvs' := kvs.set (idx - 1) lastE
  if lenOf c + 1 > O - 1 then .error .oob
  else match c with
  | .leaf ckvs csz =>
      let c' : BT := .leaf (sep :: ckvs) (csz + 1)
      let s' : BT := .leaf ((kvsOf s).take (slen - 1)) (sizeB s - 1)
      pure (kvs', (ch.set idx c').set (idx - 1) s')
  | .node ckvs csz cch =>
      let moved := (chOf s).getD slen dflt
      let c' : BT := .node (sep :: ckvs) (csz + sizeB moved + 1) (moved :: cch)
      let s' : BT := .node ((kvsOf s).take (slen - 1)) (sizeB s - sizeB moved - 1)
        ((chOf s).take slen)
      pure (kvs', (ch.set idx c').set (idx - 1) s')

/-- `IntrusiveBTree::borrowFromNext(node, idx)`: rotate the first entry of the
right sibling through the parent onto the end of `children[idx]`; the same
capacity caveat as `borrowFromPrev` applies. -/
def borrowFromNext (O : Nat) (kvs : List Entry) (ch : List BT) (idx : Nat) :
    Except Err (List Entry × List BT) :=
  let c := ch.getD idx dflt
  let s := ch.getD (idx + 1) dflt
  let sep := kvs.getD idx (0, 0)
  let firstE := (kvsOf s).getD 0 (0, 0)
  let kvs' := kvs.set idx firstE
  if lenOf c + 1 > O - 1 then .error .oob
  else match c with
  | .leaf ckvs csz =>
      let c' : BT := .leaf (ckvs ++ [sep]) (csz + 1)
      let s' : BT := .leaf ((kvsOf s).drop 1) (sizeB s - 1)
      pure (kvs', (ch.set idx c').set (idx + 1) s')
  | .node ckvs csz cch =>
      let moved := (chOf s).getD 0 dflt
      let c' : BT := .node (ckvs ++ [sep]) (csz + sizeB moved + 1) (cch ++ [moved])
      let s' : BT := .node ((kvsOf s).drop 1) (sizeB s - sizeB moved - 1)
        ((chOf s).drop 1)
      pure (kvs', (ch.set idx c').set (idx + 1) s')

/-- `IntrusiveBTree::fill(node, idx)`: repair the deficient child at `idx` by
borrowing from a sibling with spare keys, else merging.  When `idx = len = 0`
the C++ calls `merge(node, idx - 1)` with unsigned `idx - 1 = 2^32 - 1`, an
out-of-bounds access, modelled as `Err.oob`. -/
def fill (O : Nat) (kvs : List Entry) (ch : List BT) (idx : Nat) :
    Except Err (List Entry × List BT) :=
  if idx ≠ 0 ∧ lenOf (ch.getD (idx - 1) dflt) ≥ O / 2 then
    borrowFromPrev O kvs ch idx
  else if idx ≠ kvs.length ∧ lenOf (ch.getD (idx + 1) dflt) ≥ O / 2 then
    borrowFromNext O kvs ch idx
  else if idx ≠ kvs.length then
    mergeAt O kvs ch idx
  else if idx = 0 then
    .error .oob
  else
    mergeAt O kvs ch (idx - 1)

/-- Key used by `removeFromLeaf` to re-locate the leaf inside its parent:
`node->keys[0]` after the removal.  When the leaf became empty this is a
stale slot that still holds the key that was just removed (the shift
`std::move(keys + idx + 1, keys + len, keys + idx)` moved nothing). -/
def staleFillKey (kvs kvs' : List Entry) : Int :=
  (kvs'.headD (kvs.getD 0 (0, 0))).1

mutual
/-- `IntrusiveBTree::doRemove(node, key)`.  Result: the updated subtree, the
C++ return value, whether a `removeFromLeaf` physically removed an entry in
this subtree (the ancestors' `size` fields are decremented exactly in that
case, via the parent chain in the C++), and — when this subtree is a leaf
that underflowed — the key with which the parent must run `fill`
(`removeFromLeaf` does this through the parent pointer). -/
def doRemove (O : Nat) : Nat → BT → Int → Except Err (BT × Bool × Bool × Option Int)
  | 0, _, _ => .error .fuel
  | fuel + 1, t, k =>
    let kvs := kvsOf t
    let idx := locate kvs k
    if idx < kvs.length ∧ ¬(k < (kvs.getD idx (0, 0)).1) then
      match t with
      | .leaf kvs sz =>
          let kvs' := kvs.eraseIdx idx
          let req := if kvs'.length < O / 2 then some (staleFillKey kvs kvs') else none
          pure (.leaf kvs' (sz - 1), true, true, req)
      | .node kvs sz ch => do
          let (t', removed) ← removeFromNonLeaf O fuel kvs sz ch idx
          pure (t', true, removed, none)
    else
      match t with
      | .leaf _ _ => pure (t, false, false, none)
      | .node kvs sz ch => do
          let flag := idx = kvs.length
          let (kvs1, ch1) ←
            if lenOf (ch.getD idx dflt) < O / 2 then fill O kvs ch idx
            else pure (kvs, ch)
          let idx' := if flag ∧ idx > kvs1.length then idx - 1 else idx
          let (c', ret, removed, req) ← doRemove O fuel (ch1.getD idx' dflt) k
          let ch2 := ch1.set idx' c'
          let sz' := sz - (if removed then 1 else 0)
          match req with
          | none => pure (.node kvs1 sz' ch2, ret, removed, none)
          | some fk => do
              let (kvs3, ch3) ← fill O kvs1 ch2 (locate kvs1 fk)
              pure (.node kvs3 sz' ch3, ret, removed, none)

/-- `IntrusiveBTree::removeFromNonLeaf(node, idx)` on the internal node
`(kvs, sz, ch)` whose slot `idx` holds the key being removed.  Returns the
updated node and whether an entry was physically removed below. -/
def removeFromNonLeaf (O : Nat) : Nat → List Entry → Int → List BT → Nat →
    Except Err (BT × Bool)
  | 0, _, _, _, _ => .error .fuel
  | fuel + 1, kvs, sz, ch, idx =>
    let c := ch.getD idx dflt
    if lenOf c ≥ O / 2 then
      match c with
      | .leaf ckvs csz =>
          -- the predecessor leaf is `children[idx]` itself
          if ckvs.isEmpty then .error .assertFail
          else do
            let e := ckvs.getD (ckvs.length - 1) (0, 0)
            let kvs' := kvs.set idx e
            let ckvs' := ckvs.eraseIdx (ckvs.length - 1)
            let ch' := ch.set idx (.leaf ckvs' (csz - 1))
            if ckvs'.length < O / 2 then do
              let (kvs2, ch2) ← fill O kvs' ch' (locate kvs' (staleFillKey ckvs ckvs'))
              pure (.node kvs2 (sz - 1) ch2, true)
            else
              pure (.node kvs' (sz - 1) ch', true)
      | .node _ _ _ => do
          let (c', e, _) ← removeMax O fuel c
          pure (.node (kvs.set idx e) (sz - 1) (ch.set idx c'), true)
    else if lenOf (ch.getD (idx + 1) dflt) ≥ O / 2 then
      match ch.getD (idx + 1) dflt with
      | .leaf ckvs csz =>
          -- the successor leaf is `children[idx + 1]` itself
          if ckvs.isEmpty then .error .assertFail
          else do
            let e := ckvs.getD 0 (0, 0)
            let kvs' := kvs.set idx e
            let ckvs' := ckvs.eraseIdx 0
            let ch' := ch.set (idx + 1) (.leaf ckvs' (csz - 1))
            if ckvs'.length < O / 2 then do
              let (kvs2, ch2) ← fill O kvs' ch' (locate kvs' (staleFillKey ckvs ckvs'))
              pure (.node kvs2 (sz - 1) ch2, true)
            else
              pure (.node kvs' (sz - 1) ch', true)
      | .node _ _ _ => do
          let (c', e, _) ← removeMin O fuel (ch.getD (idx + 1) dflt)
          pure (.node (kvs.set idx e) (sz - 1) (ch.set (idx + 1) c'), true)
    else do
      let key := (kvs.getD idx (0, 0)).1
      let (kvs1, ch1) ← mergeAt O kvs ch idx
      let (c', _ret, removed, req) ← doRemove O fuel (ch1.getD idx dflt) key
      let ch2 := ch1.set idx c'
      let sz' := sz - (if removed then 1 else 0)
      match req with
      | none => pure (.node kvs1 sz' ch2, removed)
      | some fk => do
          let (kvs3, ch3) ← fill O kvs1 ch2 (locate kvs1 fk)
          pure (.node kvs3 sz' ch3, removed)

/-- `getPredecessor` + `removeFromLeaf` on the right-most leaf: walk to
`children[cur->len]` until a leaf, remove its last entry, run `fill` from the
leaf's parent when it underflowed (the parent chain above is updated by the
callers).  Returns the removed entry; the `Option Int` is the pending fill
request of a leaf result (always `none` for an internal node). -/
def removeMax (O : Nat) : Nat → BT → Except Err (BT × Entry × Option Int)
  | 0, _ => .error .fuel
  | fuel + 1, t =>
    match t with
    | .leaf kvs sz =>
        if kvs.isEmpty then .error .assertFail
        else
          let e := kvs.getD (kvs.length - 1) (0, 0)
          let kvs' := kvs.eraseIdx (kvs.length - 1)
          let req := if kvs'.length < O / 2 then some (staleFillKey kvs kvs') else none
          pure (.leaf kvs' (sz - 1), e, req)
    | .node kvs sz ch => do
        let (c', e, req) ← removeMax O fuel (ch.getD kvs.length dflt)
        let ch' := ch.set kvs.length c'
        match req with
        | none => pure (.node kvs (sz - 1) ch', e, none)
        | some fk => do
            let (kvs2, ch2) ← fill O kvs ch' (locate kvs fk)
            pure (.node kvs2 (sz - 1) ch2, e, none)

/-- `getSuccessor` + `removeFromLeaf` on the left-most leaf, symmetric to
`removeMax`. -/
def removeMin (O : Nat) : Nat → BT → Except Err (BT × Entry × Option Int)
  | 0, _ => .error .fuel
  | fuel + 1, t =>
    match t with
    | .leaf kvs sz =>
        if kvs.isEmpty then .error .assertFail
        else
          let e := kvs.getD 0 (0, 0)
          let kvs' := kvs.eraseIdx 0
          let req := if kvs'.length < O / 2 then some (staleFillKey kvs kvs') else none
          pure (.leaf kvs' (sz - 1), e, req)
    | .node kvs sz ch => do
        let (c', e, req) ← removeMin O fuel (ch.getD 0 dflt)
        let ch' := ch.set 0 c'
        match req with
        | none => pure (.node kvs (sz - 1) ch', e, none)
        | some fk => do
            let (kvs2, ch2) ← fill O kvs ch' (locate kvs fk)
            pure (.node kvs2 (sz - 1) ch2, e, none)
end

/-- `IntrusiveBTree::remove(key)`: run `doRemove` from the root, then perform
the (single, non-recursive) root collapse when the root is an internal node
with zero keys. -/
def removeB (O : Nat) (t : BT) (k : Int) : Except Err (BT × Bool) := do
  let (t', ret, _, _) ← doRemove O (2 * heightB t + 8) t k
  match t' with
  | .node kvs _ ch => if kvs.length = 0 then pure (ch.getD 0 dflt, ret) else pure (t', ret)
  | .leaf _ _ => pure (t', ret)

/-- Validation failures raised by `doTraverse` (`std::runtime_error` with
distinct messages in the C++).  `malformed` marks an internal node whose live
child list does not have `len + 1` entries, a state in which the C++ would
dereference an unset child pointer; it is unreachable through the public
operations. -/
inductive TErr : Type where
  | fillViolation
  | orderViolation
  | sizeMismatch
  | malformed
deriving Repr, DecidableEq

/-- The leaf loop of `doTraverse`: check each key against the running `last`
and advance it. -/
def travKeys : List Entry → Int → Except TErr Int
  | [], last => pure last
  | (k, _) :: kvs, last =>
      if k < last then .error .orderViolation else travKeys kvs k

mutual
/-- `IntrusiveBTree::doTraverse(node, depth, last, counter, print)`: the
validation traversal.  `isRoot` mirrors `node->parent == nullptr`; `last` is
the running previously-seen key (initially `-1`); printing is a no-op here.
Checks, in the C++ order: minimum fill (`len < ORDER/2 - 1`) on entry for
non-root nodes, `keys[i] < last` after each in-order visit, and
`agg + len != size` for internal nodes on exit. -/
def doTrav (O : Nat) (t : BT) (isRoot : Bool) (last : Int) : Except TErr Int :=
  match t with
  | .leaf kvs _ =>
      if ¬isRoot ∧ kvs.length < O / 2 - 1 then .error .fillViolation
      else travKeys kvs last
  | .node kvs sz ch =>
      if ¬isRoot ∧ kvs.length < O / 2 - 1 then .error .fillViolation
      else do
        let (last', agg) ← doTravList O kvs ch last
        if agg + (kvs.length : Int) ≠ sz then .error .sizeMismatch
        else pure last'

/-- The loop of `doTraverse` over an internal node: traverse `children[i]`,
check separator `keys[i]` against the running `last`, accumulate the stored
child sizes into `agg`, and finish with `children[len]`. -/
def doTravList (O : Nat) : List Entry → List BT → Int → Except TErr (Int × Int)
  | [], [c], last => do
      let l ← doTrav O c false last
      pure (l, sizeB c)
  | (k, _) :: kvs, c :: ch, last => do
      let l ← doTrav O c false last
      if k < l then .error .orderViolation
      else do
        let (l2, agg) ← doTravList O kvs ch k
        pure (l2, sizeB c + agg)
  | _, _, _ => .error .malformed
end

/-- `IntrusiveBTree::traverse(print)`: `last` starts at `-1`; the validation
checks run unconditionally (the `print` flag only controls debug output). -/
def traverseB (O : Nat) (t : BT) : Except TErr Int :=
  doTrav O t true (-1)

/-- The empty tree built by the constructor: a leaf with no keys, size 0. -/
def emptyT : BT := .leaf [] 0

/-- Public operations, for stating frame/sequence properties.  `findQ`,
`rankQ` and `szQ` are the `const` member functions `find`, `getRank` and
`size`: they cannot and do not mutate the tree. -/
inductive Op : Type where
  | ins (k v : Int)
  | rem (k : Int)
  | findQ (k : Int)
  | rankQ (k : Int)
  | szQ
deriving Repr, DecidableEq

/-- Effect of one public operation on the tree state. -/
def applyOp (O : Nat) (t : BT) : Op → Except Err BT
  | .ins k v => insertB O t k v
  | .rem k => (removeB O t k).map (·.1)
  | .findQ _ => pure t
  | .rankQ _ => pure t
  | .szQ => pure t

/-- Run a sequence of public operations from state `t`. -/
def applyOps (O : Nat) : List Op → BT → Except Err BT
  | [], t => pure t
  | op :: rest, t => do applyOps O rest (← applyOp O t op)

/-- The read-only operations. -/
def Op.isRead : Op → Bool
  | .findQ _ => true
  | .rankQ _ => true
  | .szQ => true
  | _ => false

/-! ## Specification-side predicates -/

/-- Keys currently stored, in traversal order. -/
def keysOf (t : BT) : List Int := (toListB t).map Prod.fst

/-- Number of stored keys strictly less than `k` (counting multiplicity). -/
def countLT (t : BT) (k : Int) : Nat := (keysOf t).countP fun a => decide (a < k)

/-- Number of stored entries whose key is `k`. -/
def countKey (t : BT) (k : Int) : Nat := (keysOf t).countP fun a => decide (a = k)

/-- The stored keys are strictly increasing across the in-order walk. -/
def sortedB (t : BT) : Prop := (keysOf t).Pairwise (· < ·)

instance (t : BT) : Decidable (sortedB t) := by
  unfold sortedB; infer_instance

mutual
/-- Every node (leaf or internal) except possibly the root has at least `m`
live keys. -/
def minFillB (m : Nat) (isRoot : Bool) : BT → Bool
  | .leaf kvs _ => isRoot || decide (kvs.length ≥ m)
  | .node kvs _ ch => (isRoot || decide (kvs.length ≥ m)) && minFillList m ch

/-- `minFillB` over a list of non-root subtrees. -/
def minFillList (m : Nat) : List BT → Bool
  | [] => true
  | c :: cs => minFillB m false c && minFillList m cs
end

mutual
/-- The stored `size` fields are consistent everywhere: a leaf stores its
length, an internal node stores `length + Σ children.size`. -/
def sizesOKb : BT → Bool
  | .leaf kvs sz => sz == (kvs.length : Int)
  | .node kvs sz ch =>
      (sz == (kvs.length : Int) + (ch.map sizeB).sum) && sizesOKList ch

/-- `sizesOKb` over a list of subtrees. -/
def sizesOKList : List BT → Bool
  | [] => true
  | c :: cs => sizesOKb c && sizesOKList cs
end

mutual
/-- Every internal node satisfies `size == length + Σ children.size` (the
clause of the size-consistency claim that mentions only internal nodes). -/
def internalSizesOKb : BT → Bool
  | .leaf _ _ => true
  | .node kvs sz ch =>
      (sz == (kvs.length : Int) + (ch.map sizeB).sum) && internalSizesOKList ch

/-- `internalSizesOKb` over a list of subtrees. -/
def internalSizesOKList : List BT → Bool
  | [] => true
  | c :: cs => internalSizesOKb c && internalSizesOKList cs
end

mutual
/-- Every internal node has exactly `length + 1` live children (the C++
relies on this layout; it holds for every tree the operations build). -/
def shapeOKb : BT → Bool
  | .leaf _ _ => true
  | .node kvs _ ch => (ch.length == kvs.length + 1) && shapeOKList ch

/-- `shapeOKb` over a list of subtrees. -/
def shapeOKList : List BT → Bool
  | [] => true
  | c :: cs => shapeOKb c && shapeOKList cs
end

mutual
/-- Every node has at most `O - 1` live keys. -/
def maxFillB (O : Nat) : BT → Bool
  | .leaf kvs _ => decide (kvs.length ≤ O - 1)
  | .node kvs _ ch => decide (kvs.length ≤ O - 1) && maxFillList O ch

/-- `maxFillB` over a list of subtrees. -/
def maxFillList (O : Nat) : List BT → Bool
  | [] => true
  | c :: cs => maxFillB O c && maxFillList O cs
end

/-- Every tree of the list has height exactly `h`. -/
def sameH (h : Nat) : List BT → Bool
  | [] => true
  | c :: cs => (heightB c == h) && sameH h cs

mutual
/-- The tree is height-balanced: inside every internal node all children have
the same height (hence all leaves sit at the same depth); every tree the C++
operations build is balanced. -/
def balancedB : BT → Bool
  | .leaf _ _ => true
  | .node _ _ ch => balancedList ch && sameH (heightList ch) ch

/-- `balancedB` over a list of subtrees. -/
def balancedList : List BT → Bool
  | [] => true
  | c :: cs => balancedB c && balancedList cs
end

/-! ## Concrete scenarios -/

/-- Insert a list of key/value pairs in order, starting from the empty tree. -/
def insSeq (O : Nat) : List Entry → Except Err BT → Except Err BT
  | [], acc => acc
  | (k, v) :: rest, acc => insSeq O rest (acc >>= fun t => insertB O t k v)

/-- Run a list of public operations from the empty tree. -/
def runOpsB (O : Nat) (ops : List Op) : Except Err BT := applyOps O ops emptyT

/-- Extract the tree of a successful run (`emptyT` on error; every use below
is paired with a proof that the run succeeded). -/
def okOf : Except Err BT → BT
  | .ok t => t
  | .error _ => emptyT

/-- Whether a run succeeded. -/
def isOkE : Except Err BT → Bool
  | .ok _ => true
  | .error _ => false

/-- Tree component of a `remove` result. -/
def remTree : Except Err (BT × Bool) → BT
  | .ok (t, _) => t
  | .error _ => emptyT

/-- Return value of a `remove` result. -/
def remRet : Except Err (BT × Bool) → Bool
  | .ok (_, b) => b
  | .error _ => false

/-- Whether a `remove` completed. -/
def remOk : Except Err (BT × Bool) → Bool
  | .ok _ => true
  | .error _ => false

/-! ## Concrete scenario states -/

/-- ORDER = 3 tree after inserting keys 1..5 in order (claim C7's scenario). -/
def c7t : Except Err BT := insSeq 3 [(1, 0), (2, 0), (3, 0), (4, 0), (5, 0)] (pure emptyT)

/-- The result of `remove(3)` on the claim C7 scenario tree. -/
def c7r : Except Err (BT × Bool) := removeB 3 (okOf c7t) 3

/-- ORDER = 3 tree after inserting keys 1, 2, 3, 4 and then key 2 a second
time (duplicate): used to refute the rank claim. -/
def c2t : Except Err BT := insSeq 3 [(1, 0), (2, 0), (3, 0), (4, 0), (2, 99)] (pure emptyT)

/-- ORDER = 4 operation sequence (25 distinct keys inserted, then one
removal) after which a non-root node is left with zero keys: the removal
descends the successor path to a minimally-filled leaf, whose repair merges
children of its parent without any cascading repair of the parent itself. -/
def c4ops : List Op :=
  [Op.ins 23 1, Op.ins 11 1, Op.ins 6 1, Op.ins 12 1, Op.ins 21 1, Op.ins 3 1,
   Op.ins 9 1, Op.ins 18 1, Op.ins 24 1, Op.ins 20 1, Op.ins 2 1, Op.ins 1 1,
   Op.ins 14 1, Op.ins 5 1, Op.ins 7 1, Op.ins 25 1, Op.ins 13 1, Op.ins 8 1,
   Op.ins 22 1, Op.ins 15 1, Op.ins 10 1, Op.ins 4 1, Op.ins 17 1, Op.ins 16 1,
   Op.ins 19 1, Op.rem 11]

/-- ORDER = 3 operation sequence (distinct keys) after which the root is an
internal node with zero keys. -/
def c9ops : List Op :=
  [Op.ins 1 77, Op.ins 5 67, Op.ins 2 18, Op.ins 3 92, Op.rem 5, Op.ins 4 30,
   Op.rem 2, Op.rem 4, Op.rem 3]

/-- The state just before the last removal of `c9ops`; removing key 3 from it
collapses the root once, and the promoted child is itself an internal node
with zero keys. -/
def c9pre : BT :=
  .node [(1, 77)] 2 [.node [] 0 [.leaf [] 0], .node [] 1 [.leaf [(3, 92)] 1]]

/-! ## Claim C7 -/

/-- Claim C7: with ORDER = 3, inserting keys 1,2,3,4,5 in order into the
empty tree succeeds; `traverse` with validation does not raise; `size()` is
5; `rank(3)` is 2; `remove(3)` returns `true`; a subsequent `find(3)` is
invalid; and `size()` is then 4. -/
theorem c7_scenario :
    isOkE c7t = true ∧
    traverseB 3 (okOf c7t) = .ok 5 ∧
    sizeQ (okOf c7t) = 5 ∧
    rankB (okOf c7t) 3 = 2 ∧
    remOk c7r = true ∧
    remRet c7r = true ∧
    findB (remTree c7r) 3 = none ∧
    sizeQ (remTree c7r) = 4 := by decide

/-! ## Claim C1: counterexample -/

/-- Claim C1 counterexample: with ORDER = 4, after `insert(1, 10)` the key 1
is present with one entry and `size() = 1`; `insert(1, 20)` does not
overwrite: it leaves TWO entries for key 1 and `size()` grows to 2, whereas
the claim requires exactly one entry and an unchanged size. -/
theorem c1_counterexample :
    insertB 4 emptyT 1 10 = .ok (.leaf [(1, 10)] 1) ∧
    countKey (.leaf [(1, 10)] 1) 1 = 1 ∧
    sizeQ (.leaf [(1, 10)] 1) = 1 ∧
    insertB 4 (.leaf [(1, 10)] 1) 1 20 = .ok (.leaf [(1, 20), (1, 10)] 2) ∧
    countKey (.leaf [(1, 20), (1, 10)] 2) 1 = 2 ∧
    sizeQ (.leaf [(1, 20), (1, 10)] 2) = 2 := by decide

/-! ## Claim C2: counterexample -/

/-- Claim C2 counterexample: in the ORDER = 3 tree built by inserting keys
1, 2, 3, 4 and then 2 again, the key 2 is present, exactly one stored key
(the key 1) is strictly less than 2, yet `rank(2)` returns 2: on an exact
match the code adds the whole subtree size left of the match, which here
contains the other copy of the key 2 itself. -/
theorem c2_counterexample :
    isOkE c2t = true ∧
    countKey (okOf c2t) 2 = 2 ∧
    countLT (okOf c2t) 2 = 1 ∧
    rankB (okOf c2t) 2 = 2 := by decide

/-! ## Claim C5: counterexample -/

/-- Claim C5 counterexample: insert key 1 twice (values 10 then 20) with
ORDER = 4; `remove(1)` returns `true`, but afterwards `find(1)` is still a
valid cursor (exposing the remaining copy), and a second `remove(1)` returns
`true` rather than `false`. -/
theorem c5_counterexample :
    insertB 4 emptyT 1 10 = .ok (.leaf [(1, 10)] 1) ∧
    insertB 4 (.leaf [(1, 10)] 1) 1 20 = .ok (.leaf [(1, 20), (1, 10)] 2) ∧
    removeB 4 (.leaf [(1, 20), (1, 10)] 2) 1 = .ok (.leaf [(1, 10)] 1, true) ∧
    findB (.leaf [(1, 10)] 1) 1 = some (1, 10) ∧
    removeB 4 (.leaf [(1, 10)] 1) 1 = .ok (.leaf [] 0, true) := by decide

/-! ## Claim C6: counterexample -/

/-- Claim C6 counterexample: the reachable ORDER = 4 tree holding the key 1
twice has an in-order walk `[1, 1]` in which the later key is NOT greater
than the previous one, yet `traverse` raises nothing: the code only checks
`keys[i] < last`, so equal adjacent keys pass validation. -/
theorem c6_counterexample :
    insertB 4 emptyT 1 10 = .ok (.leaf [(1, 10)] 1) ∧
    insertB 4 (.leaf [(1, 10)] 1) 1 20 = .ok (.leaf [(1, 20), (1, 10)] 2) ∧
    keysOf (.leaf [(1, 20), (1, 10)] 2) = [1, 1] ∧
    traverseB 4 (.leaf [(1, 20), (1, 10)] 2) = .ok 1 := by decide

/-! ## Claim C4: the failing input -/

/-! ## Claim C9 -/


/-- Stepping lemma: a successful first operation reduces a run to the run of
the remaining operations from the new state. -/
theorem applyOps_cons_ok {O : Nat} {op : Op} {rest : List Op} {t t' : BT}
    (h : applyOp O t op = .ok t') :
    applyOps O (op :: rest) t = applyOps O rest t' := by
  conv_lhs => rw [applyOps]
  rw [h]
  rfl

/-! ### Intermediate states of the claim C4 sequence -/

/-- State after the first 1 operations of `c4ops`. -/
def c4s1 : BT := BT.leaf [(23, 1)] 1

/-- State after the first 2 operations of `c4ops`. -/
def c4s2 : BT := BT.leaf [(11, 1), (23, 1)] 2

/-- State after the first 3 operations of `c4ops`. -/
def c4s3 : BT := BT.leaf [(6, 1), (11, 1), (23, 1)] 3

/-- State after the first 4 operations of `c4ops`. -/
def c4s4 : BT := BT.node [(11, 1)] 4 [BT.leaf [(6, 1)] 1, BT.leaf [(12, 1), (23, 1)] 2]

/-- State after the first 5 operations of `c4ops`. -/
def c4s5 : BT := BT.node [(11, 1)] 5 [BT.leaf [(6, 1)] 1, BT.leaf [(12, 1), (21, 1), (23, 1)] 3]

/-- State after the first 6 operations of `c4ops`. -/
def c4s6 : BT := BT.node [(11, 1)] 6 [BT.leaf [(3, 1), (6, 1)] 2, BT.leaf [(12, 1), (21, 1), (23, 1)] 3]

/-- State after the first 7 operations of `c4ops`. -/
def c4s7 : BT := BT.node [(11, 1)] 7 [BT.leaf [(3, 1), (6, 1), (9, 1)] 3, BT.leaf [(12, 1), (21, 1), (23, 1)] 3]

/-- State after the first 8 operations of `c4ops`. -/
def c4s8 : BT := BT.node [(11, 1), (21, 1)] 8 [BT.leaf [(3, 1), (6, 1), (9, 1)] 3, BT.leaf [(12, 1), (18, 1)] 2, BT.leaf [(23, 1)] 1]

/-- State after the first 9 operations of `c4ops`. -/
def c4s9 : BT := BT.node [(11, 1), (21, 1)] 9 [BT.leaf [(3, 1), (6, 1), (9, 1)] 3, BT.leaf [(12, 1), (18, 1)] 2, BT.leaf [(23, 1), (24, 1)] 2]

/-- State after the first 10 operations of `c4ops`. -/
def c4s10 : BT := BT.node [(11, 1), (21, 1)] 10 [BT.leaf [(3, 1), (6, 1), (9, 1)] 3, BT.leaf [(12, 1), (18, 1), (20, 1)] 3, BT.leaf [(23, 1), (24, 1)] 2]

/-- State after the first 11 operations of `c4ops`. -/
def c4s11 : BT := BT.node [(6, 1), (11, 1), (21, 1)] 11 [BT.leaf [(2, 1), (3, 1)] 2, BT.leaf [(9, 1)] 1, BT.leaf [(12, 1), (18, 1), (20, 1)] 3, BT.leaf [(23, 1), (24, 1)] 2]

/-- State after the first 12 operations of `c4ops`. -/
def c4s12 : BT := BT.node [(11, 1)] 12 [BT.node [(6, 1)] 5 [BT.leaf [(1, 1), (2, 1), (3, 1)] 3, BT.leaf [(9, 1)] 1], BT.node [(21, 1)] 6 [BT.leaf [(12, 1), (18, 1), (20, 1)] 3, BT.leaf [(23, 1), (24, 1)] 2]]

/-- State after the first 13 operations of `c4ops`. -/
def c4s13 : BT := BT.node [(11, 1)] 13 [BT.node [(6, 1)] 5 [BT.leaf [(1, 1), (2, 1), (3, 1)] 3, BT.leaf [(9, 1)] 1], BT.node [(18, 1), (21, 1)] 7 [BT.leaf [(12, 1), (14, 1)] 2, BT.leaf [(20, 1)] 1, BT.leaf [(23, 1), (24, 1)] 2]]

/-- State after the first 14 operations of `c4ops`. -/
def c4s14 : BT := BT.node [(11, 1)] 14 [BT.node [(2, 1), (6, 1)] 6 [BT.leaf [(1, 1)] 1, BT.leaf [(3, 1), (5, 1)] 2, BT.leaf [(9, 1)] 1], BT.node [(18, 1), (21, 1)] 7 [BT.leaf [(12, 1), (14, 1)] 2, BT.leaf [(20, 1)] 1, BT.leaf [(23, 1), (24, 1)] 2]]

/-- State after the first 15 operations of `c4ops`. -/
def c4s15 : BT := BT.node [(11, 1)] 15 [BT.node [(2, 1), (6, 1)] 7 [BT.leaf [(1, 1)] 1, BT.leaf [(3, 1), (5, 1)] 2, BT.leaf [(7, 1), (9, 1)] 2], BT.node [(18, 1), (21, 1)] 7 [BT.leaf [(12, 1), (14, 1)] 2, BT.leaf [(20, 1)] 1, BT.leaf [(23, 1), (24, 1)] 2]]

/-- State after the first 16 operations of `c4ops`. -/
def c4s16 : BT := BT.node [(11, 1)] 16 [BT.node [(2, 1), (6, 1)] 7 [BT.leaf [(1, 1)] 1, BT.leaf [(3, 1), (5, 1)] 2, BT.leaf [(7, 1), (9, 1)] 2], BT.node [(18, 1), (21, 1)] 8 [BT.leaf [(12, 1), (14, 1)] 2, BT.leaf [(20, 1)] 1, BT.leaf [(23, 1), (24, 1), (25, 1)] 3]]

/-- State after the first 17 operations of `c4ops`. -/
def c4s17 : BT := BT.node [(11, 1)] 17 [BT.node [(2, 1), (6, 1)] 7 [BT.leaf [(1, 1)] 1, BT.leaf [(3, 1), (5, 1)] 2, BT.leaf [(7, 1), (9, 1)] 2], BT.node [(18, 1), (21, 1)] 9 [BT.leaf [(12, 1), (13, 1), (14, 1)] 3, BT.leaf [(20, 1)] 1, BT.leaf [(23, 1), (24, 1), (25, 1)] 3]]

/-- State after the first 18 operations of `c4ops`. -/
def c4s18 : BT := BT.node [(11, 1)] 18 [BT.node [(2, 1), (6, 1)] 8 [BT.leaf [(1, 1)] 1, BT.leaf [(3, 1), (5, 1)] 2, BT.leaf [(7, 1), (8, 1), (9, 1)] 3], BT.node [(18, 1), (21, 1)] 9 [BT.leaf [(12, 1), (13, 1), (14, 1)] 3, BT.leaf [(20, 1)] 1, BT.leaf [(23, 1), (24, 1), (25, 1)] 3]]

/-- State after the first 19 operations of `c4ops`. -/
def c4s19 : BT := BT.node [(11, 1)] 19 [BT.node [(2, 1), (6, 1)] 8 [BT.leaf [(1, 1)] 1, BT.leaf [(3, 1), (5, 1)] 2, BT.leaf [(7, 1), (8, 1), (9, 1)] 3], BT.node [(18, 1), (21, 1), (24, 1)] 10 [BT.leaf [(12, 1), (13, 1), (14, 1)] 3, BT.leaf [(20, 1)] 1, BT.leaf [(22, 1), (23, 1)] 2, BT.leaf [(25, 1)] 1]]

/-- State after the first 20 operations of `c4ops`. -/
def c4s20 : BT := BT.node [(11, 1), (21, 1)] 20 [BT.node [(2, 1), (6, 1)] 8 [BT.leaf [(1, 1)] 1, BT.leaf [(3, 1), (5, 1)] 2, BT.leaf [(7, 1), (8, 1), (9, 1)] 3], BT.node [(13, 1), (18, 1)] 6 [BT.leaf [(12, 1)] 1, BT.leaf [(14, 1), (15, 1)] 2, BT.leaf [(20, 1)] 1], BT.node [(24, 1)] 4 [BT.leaf [(22, 1), (23, 1)] 2, BT.leaf [(25, 1)] 1]]

/-- State after the first 21 operations of `c4ops`. -/
def c4s21 : BT := BT.node [(11, 1), (21, 1)] 21 [BT.node [(2, 1), (6, 1), (8, 1)] 9 [BT.leaf [(1, 1)] 1, BT.leaf [(3, 1), (5, 1)] 2, BT.leaf [(7, 1)] 1, BT.leaf [(9, 1), (10, 1)] 2], BT.node [(13, 1), (18, 1)] 6 [BT.leaf [(12, 1)] 1, BT.leaf [(14, 1), (15, 1)] 2, BT.leaf [(20, 1)] 1], BT.node [(24, 1)] 4 [BT.leaf [(22, 1), (23, 1)] 2, BT.leaf [(25, 1)] 1]]

/-- State after the first 22 operations of `c4ops`. -/
def c4s22 : BT := BT.node [(6, 1), (11, 1), (21, 1)] 22 [BT.node [(2, 1)] 5 [BT.leaf [(1, 1)] 1, BT.leaf [(3, 1), (4, 1), (5, 1)] 3], BT.node [(8, 1)] 4 [BT.leaf [(7, 1)] 1, BT.leaf [(9, 1), (10, 1)] 2], BT.node [(13, 1), (18, 1)] 6 [BT.leaf [(12, 1)] 1, BT.leaf [(14, 1), (15, 1)] 2, BT.leaf [(20, 1)] 1], BT.node [(24, 1)] 4 [BT.leaf [(22, 1), (23, 1)] 2, BT.leaf [(25, 1)] 1]]

/-- State after the first 23 operations of `c4ops`. -/
def c4s23 : BT := BT.node [(11, 1)] 23 [BT.node [(6, 1)] 10 [BT.node [(2, 1)] 5 [BT.leaf [(1, 1)] 1, BT.leaf [(3, 1), (4, 1), (5, 1)] 3], BT.node [(8, 1)] 4 [BT.leaf [(7, 1)] 1, BT.leaf [(9, 1), (10, 1)] 2]], BT.node [(21, 1)] 12 [BT.node [(13, 1), (18, 1)] 7 [BT.leaf [(12, 1)] 1, BT.leaf [(14, 1), (15, 1), (17, 1)] 3, BT.leaf [(20, 1)] 1], BT.node [(24, 1)] 4 [BT.leaf [(22, 1), (23, 1)] 2, BT.leaf [(25, 1)] 1]]]

/-- State after the first 24 operations of `c4ops`. -/
def c4s24 : BT := BT.node [(11, 1)] 24 [BT.node [(6, 1)] 10 [BT.node [(2, 1)] 5 [BT.leaf [(1, 1)] 1, BT.leaf [(3, 1), (4, 1), (5, 1)] 3], BT.node [(8, 1)] 4 [BT.leaf [(7, 1)] 1, BT.leaf [(9, 1), (10, 1)] 2]], BT.node [(21, 1)] 13 [BT.node [(13, 1), (15, 1), (18, 1)] 8 [BT.leaf [(12, 1)] 1, BT.leaf [(14, 1)] 1, BT.leaf [(16, 1), (17, 1)] 2, BT.leaf [(20, 1)] 1], BT.node [(24, 1)] 4 [BT.leaf [(22, 1), (23, 1)] 2, BT.leaf [(25, 1)] 1]]]

/-- State after the first 25 operations of `c4ops`. -/
def c4s25 : BT := BT.node [(11, 1)] 25 [BT.node [(6, 1)] 10 [BT.node [(2, 1)] 5 [BT.leaf [(1, 1)] 1, BT.leaf [(3, 1), (4, 1), (5, 1)] 3], BT.node [(8, 1)] 4 [BT.leaf [(7, 1)] 1, BT.leaf [(9, 1), (10, 1)] 2]], BT.node [(15, 1), (21, 1)] 14 [BT.node [(13, 1)] 3 [BT.leaf [(12, 1)] 1, BT.leaf [(14, 1)] 1], BT.node [(18, 1)] 5 [BT.leaf [(16, 1), (17, 1)] 2, BT.leaf [(19, 1), (20, 1)] 2], BT.node [(24, 1)] 4 [BT.leaf [(22, 1), (23, 1)] 2, BT.leaf [(25, 1)] 1]]]

/-- State after the first 26 operations of `c4ops`. -/
def c4s26 : BT := BT.node [(12, 1)] 24 [BT.node [(6, 1)] 10 [BT.node [(2, 1)] 5 [BT.leaf [(1, 1)] 1, BT.leaf [(3, 1), (4, 1), (5, 1)] 3], BT.node [(8, 1)] 4 [BT.leaf [(7, 1)] 1, BT.leaf [(9, 1), (10, 1)] 2]], BT.node [(15, 1), (21, 1)] 13 [BT.node [] 2 [BT.leaf [(13, 1), (14, 1)] 2], BT.node [(18, 1)] 5 [BT.leaf [(16, 1), (17, 1)] 2, BT.leaf [(19, 1), (20, 1)] 2], BT.node [(24, 1)] 4 [BT.leaf [(22, 1), (23, 1)] 2, BT.leaf [(25, 1)] 1]]]

theorem c4step1 : applyOp 4 emptyT (Op.ins 23 1) = .ok c4s1 := by decide

theorem c4step2 : applyOp 4 c4s1 (Op.ins 11 1) = .ok c4s2 := by decide

theorem c4step3 : applyOp 4 c4s2 (Op.ins 6 1) = .ok c4s3 := by decide

theorem c4step4 : applyOp 4 c4s3 (Op.ins 12 1) = .ok c4s4 := by decide

theorem c4step5 : applyOp 4 c4s4 (Op.ins 21 1) = .ok c4s5 := by decide

theorem c4step6 : applyOp 4 c4s5 (Op.ins 3 1) = .ok c4s6 := by decide

theorem c4step7 : applyOp 4 c4s6 (Op.ins 9 1) = .ok c4s7 := by decide

theorem c4step8 : applyOp 4 c4s7 (Op.ins 18 1) = .ok c4s8 := by decide

theorem c4step9 : applyOp 4 c4s8 (Op.ins 24 1) = .ok c4s9 := by decide

theorem c4step10 : applyOp 4 c4s9 (Op.ins 20 1) = .ok c4s10 := by decide

theorem c4step11 : applyOp 4 c4s10 (Op.ins 2 1) = .ok c4s11 := by decide

theorem c4step12 : applyOp 4 c4s11 (Op.ins 1 1) = .ok c4s12 := by decide

theorem c4step13 : applyOp 4 c4s12 (Op.ins 14 1) = .ok c4s13 := by decide

theorem c4step14 : applyOp 4 c4s13 (Op.ins 5 1) = .ok c4s14 := by decide

theorem c4step15 : applyOp 4 c4s14 (Op.ins 7 1) = .ok c4s15 := by decide

theorem c4step16 : applyOp 4 c4s15 (Op.ins 25 1) = .ok c4s16 := by decide

theorem c4step17 : applyOp 4 c4s16 (Op.ins 13 1) = .ok c4s17 := by decide

theorem c4step18 : applyOp 4 c4s17 (Op.ins 8 1) = .ok c4s18 := by decide

theorem c4step19 : applyOp 4 c4s18 (Op.ins 22 1) = .ok c4s19 := by decide

theorem c4step20 : applyOp 4 c4s19 (Op.ins 15 1) = .ok c4s20 := by decide

theorem c4step21 : applyOp 4 c4s20 (Op.ins 10 1) = .ok c4s21 := by decide

theorem c4step22 : applyOp 4 c4s21 (Op.ins 4 1) = .ok c4s22 := by decide

theorem c4step23 : applyOp 4 c4s22 (Op.ins 17 1) = .ok c4s23 := by decide

theorem c4step24 : applyOp 4 c4s23 (Op.ins 16 1) = .ok c4s24 := by decide

theorem c4step25 : applyOp 4 c4s24 (Op.ins 19 1) = .ok c4s25 := by decide

theorem c4step26 : applyOp 4 c4s25 (Op.rem 11) = .ok c4s26 := by decide

/-! ### Intermediate states of the claim C9 sequence -/

/-- State after the first 1 operations of `c9ops`. -/
def c9s1 : BT := BT.leaf [(1, 77)] 1

/-- State after the first 2 operations of `c9ops`. -/
def c9s2 : BT := BT.leaf [(1, 77), (5, 67)] 2

/-- State after the first 3 operations of `c9ops`. -/
def c9s3 : BT := BT.node [(1, 77)] 3 [BT.leaf [] 0, BT.leaf [(2, 18), (5, 67)] 2]

/-- State after the first 4 operations of `c9ops`. -/
def c9s4 : BT := BT.node [(1, 77), (2, 18)] 4 [BT.leaf [] 0, BT.leaf [] 0, BT.leaf [(3, 92), (5, 67)] 2]

/-- State after the first 5 operations of `c9ops`. -/
def c9s5 : BT := BT.node [(1, 77), (2, 18)] 3 [BT.leaf [] 0, BT.leaf [] 0, BT.leaf [(3, 92)] 1]

/-- State after the first 6 operations of `c9ops`. -/
def c9s6 : BT := BT.node [(1, 77)] 4 [BT.node [] 0 [BT.leaf [] 0], BT.node [(2, 18)] 3 [BT.leaf [] 0, BT.leaf [(3, 92), (4, 30)] 2]]

/-- State after the first 7 operations of `c9ops`. -/
def c9s7 : BT := BT.node [(1, 77)] 3 [BT.node [] 0 [BT.leaf [] 0], BT.node [(3, 92)] 2 [BT.leaf [] 0, BT.leaf [(4, 30)] 1]]

/-- State after the first 9 operations of `c9ops`. -/
def c9s9 : BT := BT.node [] 1 [BT.leaf [(1, 77)] 1]

theorem c9step1 : applyOp 3 emptyT (Op.ins 1 77) = .ok c9s1 := by decide

theorem c9step2 : applyOp 3 c9s1 (Op.ins 5 67) = .ok c9s2 := by decide

theorem c9step3 : applyOp 3 c9s2 (Op.ins 2 18) = .ok c9s3 := by decide

theorem c9step4 : applyOp 3 c9s3 (Op.ins 3 92) = .ok c9s4 := by decide

theorem c9step5 : applyOp 3 c9s4 (Op.rem 5) = .ok c9s5 := by decide

theorem c9step6 : applyOp 3 c9s5 (Op.ins 4 30) = .ok c9s6 := by decide

theorem c9step7 : applyOp 3 c9s6 (Op.rem 2) = .ok c9s7 := by decide

theorem c9step8 : applyOp 3 c9s7 (Op.rem 4) = .ok c9pre := by decide

theorem c9step9 : applyOp 3 c9pre (Op.rem 3) = .ok c9s9 := by decide

/-- The `c4ops` run reaches `c4s26`. -/
theorem c4_run : runOpsB 4 c4ops = .ok c4s26 := by
  unfold runOpsB c4ops
  rw [applyOps_cons_ok c4step1, applyOps_cons_ok c4step2, applyOps_cons_ok c4step3,
    applyOps_cons_ok c4step4, applyOps_cons_ok c4step5, applyOps_cons_ok c4step6,
    applyOps_cons_ok c4step7, applyOps_cons_ok c4step8, applyOps_cons_ok c4step9,
    applyOps_cons_ok c4step10, applyOps_cons_ok c4step11, applyOps_cons_ok c4step12,
    applyOps_cons_ok c4step13, applyOps_cons_ok c4step14, applyOps_cons_ok c4step15,
    applyOps_cons_ok c4step16, applyOps_cons_ok c4step17, applyOps_cons_ok c4step18,
    applyOps_cons_ok c4step19, applyOps_cons_ok c4step20, applyOps_cons_ok c4step21,
    applyOps_cons_ok c4step22, applyOps_cons_ok c4step23, applyOps_cons_ok c4step24,
    applyOps_cons_ok c4step25, applyOps_cons_ok c4step26]
  rfl

/-- Claim C4: minimum fill is NOT an invariant.  After the ORDER = 4 sequence
`c4ops` (25 distinct inserts and one remove, all operations completing
normally) a non-root node has fewer than `⌈4/2⌉ − 1 = 1` keys, and the
code's own validating traversal rejects the tree with a fill violation.
Moreover for odd ORDER the bound fails already on an insert-only sequence:
with ORDER = 3, after inserting 1, 2, 3 a non-root leaf has zero keys
(`⌈3/2⌉ − 1 = 1`), while the validator — which only checks the floor bound
`⌊3/2⌋ − 1 = 0` — accepts that tree. -/
theorem c4_failing_input :
    runOpsB 4 c4ops = .ok c4s26 ∧
    minFillB 1 true c4s26 = false ∧
    traverseB 4 c4s26 = .error .fillViolation ∧
    insSeq 3 [(1, 0), (2, 0), (3, 0)] (pure emptyT) =
      .ok (.node [(1, 0)] 3 [.leaf [] 0, .leaf [(2, 0), (3, 0)] 2]) ∧
    minFillB 1 true (.node [(1, 0)] 3 [.leaf [] 0, .leaf [(2, 0), (3, 0)] 2]) = false ∧
    traverseB 3 (.node [(1, 0)] 3 [.leaf [] 0, .leaf [(2, 0), (3, 0)] 2]) = .ok 3 :=
  ⟨c4_run, by decide, by decide, by decide, by decide, by decide⟩

/-- The first eight operations of `c9ops` reach `c9pre`. -/
theorem c9_run_pre : runOpsB 3 (c9ops.take 8) = .ok c9pre := by
  have h8 : c9ops.take 8 = [Op.ins 1 77, Op.ins 5 67, Op.ins 2 18, Op.ins 3 92,
      Op.rem 5, Op.ins 4 30, Op.rem 2, Op.rem 4] := by decide
  rw [h8]
  unfold runOpsB
  rw [applyOps_cons_ok c9step1, applyOps_cons_ok c9step2, applyOps_cons_ok c9step3,
    applyOps_cons_ok c9step4, applyOps_cons_ok c9step5, applyOps_cons_ok c9step6,
    applyOps_cons_ok c9step7, applyOps_cons_ok c9step8]
  rfl

/-- The full `c9ops` run reaches a tree whose root is an internal node with
zero keys. -/
theorem c9_run : runOpsB 3 c9ops = .ok (.node [] 1 [.leaf [(1, 77)] 1]) := by
  unfold runOpsB c9ops
  rw [applyOps_cons_ok c9step1, applyOps_cons_ok c9step2, applyOps_cons_ok c9step3,
    applyOps_cons_ok c9step4, applyOps_cons_ok c9step5, applyOps_cons_ok c9step6,
    applyOps_cons_ok c9step7, applyOps_cons_ok c9step8, applyOps_cons_ok c9step9]
  rfl

/-- Claim C9 counterexample: after the ORDER = 3 sequence `c9ops` (distinct
keys, every operation completing normally) the tree's root is an internal
node with zero keys: the root collapse promoted a child that is itself an
internal zero-key node, and the promotion is not repeated. -/
theorem c9_counterexample :
    runOpsB 3 c9ops = .ok (.node [] 1 [.leaf [(1, 77)] 1]) ∧
    isLeafB (.node [] 1 [.leaf [(1, 77)] 1]) = false ∧
    lenOf (.node [] 1 [.leaf [(1, 77)] 1]) = 0 :=
  ⟨c9_run, by decide, by decide⟩

/-! ## Claim C8 -/

/-- Claim C8: `locate(node, key)` returns the lower-bound position of `key`
among the node's live keys: an index not beyond `length`, such that every
earlier key is strictly less than `key`, the key at the returned index (when
in range) is not less than `key`, and no smaller index has a key `≥ key`. -/
theorem c8_locate_lower_bound (kvs : List Entry) (key : Int) :
    locate kvs key ≤ kvs.length ∧
    (∀ j, j < locate kvs key → (kvs.getD j (0, 0)).1 < key) ∧
    (locate kvs key < kvs.length → key ≤ (kvs.getD (locate kvs key) (0, 0)).1) ∧
    (∀ i, i < kvs.length → key ≤ (kvs.getD i (0, 0)).1 → locate kvs key ≤ i) := by
  unfold locate
  refine ⟨List.findIdx_le_length _, fun j hj => ?_, fun hlt => ?_, fun i hi hk => ?_⟩
  · have hjl : j < kvs.length := lt_of_lt_of_le hj (List.findIdx_le_length _)
    have h1 := List.not_of_lt_findIdx hj
    have h2 : (kvs[j].1 < key) := by simpa using h1
    rw [List.getD_eq_getElem?_getD, List.getElem?_eq_getElem hjl]
    simpa using h2
  · have h1 := @List.findIdx_getElem _ (fun e => !decide (e.1 < key)) kvs hlt
    have h2 : key ≤ (kvs[List.findIdx (fun e => !decide (e.1 < key)) kvs]).1 := by
      simpa [not_lt] using h1
    rw [List.getD_eq_getElem?_getD, List.getElem?_eq_getElem hlt]
    simpa using h2
  · by_contra hcon
    push_neg at hcon
    have h1 := List.not_of_lt_findIdx hcon
    have h2 : (kvs[i].1 < key) := by simpa using h1
    rw [List.getD_eq_getElem?_getD, List.getElem?_eq_getElem hi] at hk
    simp only [Option.getD_some] at hk
    exact absurd hk (not_le.mpr h2)

/-- Witness for claim C8 on a concrete node: in `[3, 5, 8]` the key 6 locates
to index 2 (the slot of 8). -/
theorem c8_locate_lower_bound_witness :
    locate [(3, 0), (5, 0), (8, 0)] 6 = 2 ∧
    ((3 : Int), (0 : Int)).1 < 6 ∧
    (6 : Int) ≤ 8 ∧
    locate [(3, 0), (5, 0), (8, 0)] 6 ≤ 2 :=
  ⟨by decide, (c8_locate_lower_bound [(3, 0), (5, 0), (8, 0)] 6).2.1 0 (by decide),
   by decide,
   (c8_locate_lower_bound [(3, 0), (5, 0), (8, 0)] 6).2.2.2 2 (by decide) (by decide)⟩

/-! ## Claim C10 -/

/-- One unfolding step of `applyOps`. -/
theorem applyOps_cons (O : Nat) (op : Op) (rest : List Op) (t : BT) :
    applyOps O (op :: rest) t = (applyOp O t op).bind fun u => applyOps O rest u := by
  conv_lhs => rw [applyOps]
  rfl

/-- Claim C10: `find`, `rank` and `size` are read-only (`const` member
functions without mutation): deleting them from any operation sequence leaves
the resulting tree state unchanged, so all later operations behave as if the
reads had not been made; moreover on the empty tree `find` is invalid, `rank`
returns 0 and `size()` returns 0. -/
theorem c10_reads_are_pure (O : Nat) :
    (∀ (ops : List Op) (t : BT),
        applyOps O ops t = applyOps O (ops.filter fun op => !op.isRead) t) ∧
    (∀ k : Int, findB emptyT k = none) ∧
    (∀ k : Int, rankB emptyT k = 0) ∧
    sizeQ emptyT = 0 := by
  refine ⟨fun ops => ?_, fun k => rfl, fun k => rfl, rfl⟩
  induction ops with
  | nil => intro t; rfl
  | cons op rest ih =>
    intro t
    rw [List.filter_cons]
    cases op with
    | findQ k =>
        rw [applyOps_cons]
        simpa [Op.isRead, applyOp, Except.bind] using ih t
    | rankQ k =>
        rw [applyOps_cons]
        simpa [Op.isRead, applyOp, Except.bind] using ih t
    | szQ =>
        rw [applyOps_cons]
        simpa [Op.isRead, applyOp, Except.bind] using ih t
    | ins k v =>
        simp only [Op.isRead, Bool.not_false, if_true]
        rw [applyOps_cons, applyOps_cons]
        cases h : insertB O t k v with
        | ok u => simp only [applyOp, h, Except.bind]; exact ih u
        | error e => simp [applyOp, h, Except.bind]
    | rem k =>
        simp only [Op.isRead, Bool.not_false, if_true]
        rw [applyOps_cons, applyOps_cons]
        cases h : removeB O t k with
        | ok u =>
            simp only [applyOp, h, Except.map, Except.bind]
            exact ih u.1
        | error e => simp [applyOp, h, Except.map, Except.bind]

/-! ## Claim C6: characterisation of the validating traversal -/

/-- `bind` on a successful `Except` computation. -/
theorem except_bind_ok {e a b : Type} (x : a) (f : a → Except e b) :
    (Except.ok x >>= f) = f x := rfl

/-- `bind` on a failed `Except` computation. -/
theorem except_bind_error {e a b : Type} (u : e) (f : a → Except e b) :
    ((Except.error u : Except e a) >>= f) = Except.error u := rfl

/-- Success of the running order check of `doTraverse`: starting from `last`,
every visited key must not be less than the previously visited one. -/
def chainOK : Int → List Int → Bool
  | _, [] => true
  | last, k :: ks => !decide (k < last) && chainOK k ks

/-- The value of the running `last` after visiting `ks`. -/
def lastOf (last : Int) (ks : List Int) : Int := ks.getLastD last

theorem lastOf_cons (last k : Int) (ks : List Int) :
    lastOf last (k :: ks) = lastOf k ks := by
  cases ks <;> simp [lastOf, List.getLastD]

theorem lastOf_append (last : Int) (a b : List Int) :
    lastOf last (a ++ b) = lastOf (lastOf last a) b := by
  induction a generalizing last with
  | nil => simp [lastOf]
  | cons k ks ih => simp only [List.cons_append, lastOf_cons, ih]

theorem chainOK_append (last : Int) (a b : List Int) :
    chainOK last (a ++ b) = (chainOK last a && chainOK (lastOf last a) b) := by
  induction a generalizing last with
  | nil => simp [chainOK, lastOf]
  | cons k ks ih =>
      simp only [List.cons_append, chainOK, lastOf_cons, List.append_eq, ih k,
        Bool.and_assoc]

/-- `chainOK` is the non-strict chain condition of the standard library. -/
theorem chainOK_iff_chain (last : Int) (ks : List Int) :
    chainOK last ks = true ↔ List.Chain (· ≤ ·) last ks := by
  induction ks generalizing last with
  | nil => simp [chainOK]
  | cons k ks ih => simp [chainOK, List.chain_cons, ih, not_lt]

/-- The entry fill check of `doTraverse` passes (as a boolean) iff the node
is the root or holds at least `m` keys. -/
theorem fillCond_true_iff (isRoot : Bool) (n m : Nat) :
    (isRoot || decide (n ≥ m)) = true ↔ ¬(¬isRoot = true ∧ n < m) := by
  cases isRoot <;> simp [not_lt]

/-- The leaf loop of `doTraverse` succeeds exactly when the keys continue the
running chain, and then returns the last visited key. -/
theorem travKeys_spec (kvs : List Entry) (last : Int) :
    travKeys kvs last =
      if chainOK last (kvs.map Prod.fst) = true
      then .ok (lastOf last (kvs.map Prod.fst))
      else .error .orderViolation := by
  induction kvs generalizing last with
  | nil => simp [travKeys, chainOK, lastOf, pure, Except.pure]
  | cons e kvs ih =>
      by_cases h : e.1 < last
      · simp [travKeys, h, chainOK]
      · rw [travKeys, if_neg h, ih e.1]
        simp only [List.map_cons, chainOK, lastOf_cons, decide_eq_false h,
          Bool.not_false, Bool.true_and]

mutual
/-- `doTraverse` succeeds if and only if: every non-root node in the subtree
has at least `⌊O/2⌋ − 1` keys, the in-order keys continue the running chain
from `last`, and every internal node's stored size equals its length plus the
sum of its children's stored sizes; the returned value is then the last
visited key.  (Stated for well-shaped trees; elsewhere the C++ dereferences
unset child pointers.) -/
theorem doTrav_spec (O : Nat) (t : BT) (isRoot : Bool) (last : Int)
    (hsh : shapeOKb t = true) :
    (doTrav O t isRoot last = .ok (lastOf last (keysOf t)) ↔
      (minFillB (O / 2 - 1) isRoot t && chainOK last (keysOf t) &&
        internalSizesOKb t) = true) ∧
    ∀ x, doTrav O t isRoot last = .ok x → x = lastOf last (keysOf t) := by
  match t with
  | .leaf kvs sz =>
      have hkeys : keysOf (BT.leaf kvs sz) = kvs.map Prod.fst := rfl
      by_cases hb : (isRoot || decide (kvs.length ≥ O / 2 - 1)) = true
      · have hcond := (fillCond_true_iff isRoot kvs.length (O / 2 - 1)).mp hb
        constructor
        · rw [doTrav, if_neg hcond, travKeys_spec, hkeys]
          simp only [minFillB, internalSizesOKb, hb, Bool.true_and, Bool.and_true]
          by_cases hc : chainOK last (kvs.map Prod.fst) = true
          · rw [if_pos hc, hc]
            simp
          · have hc' : chainOK last (kvs.map Prod.fst) = false := by
              revert hc; cases chainOK last (kvs.map Prod.fst) <;> simp
            rw [if_neg hc, hc']
            simp
        · intro x hx
          rw [doTrav, if_neg hcond, travKeys_spec] at hx
          by_cases hc : chainOK last (kvs.map Prod.fst) = true
          · rw [if_pos hc] at hx
            exact (Except.ok.inj hx).symm
          · rw [if_neg hc] at hx
            exact Except.noConfusion hx
      · have hb' : (isRoot || decide (kvs.length ≥ O / 2 - 1)) = false := by
          revert hb; cases (isRoot || decide (kvs.length ≥ O / 2 - 1)) <;> simp
        have hcond : ¬isRoot = true ∧ kvs.length < O / 2 - 1 := by
          by_contra hcon
          exact hb ((fillCond_true_iff isRoot kvs.length (O / 2 - 1)).mpr hcon)
        constructor
        · rw [doTrav, if_pos hcond]
          simp only [minFillB, hb']
          simp
        · intro x hx
          rw [doTrav, if_pos hcond] at hx
          exact Except.noConfusion hx
  | .node kvs sz ch =>
      have hshl : shapeOKList ch = true ∧ ch.length = kvs.length + 1 := by
        have h2 := hsh
        simp only [shapeOKb, Bool.and_eq_true, beq_iff_eq] at h2
        exact ⟨h2.2, h2.1⟩
      have hlist := doTravList_spec O kvs ch last hshl.1 hshl.2
      have hkeys : keysOf (BT.node kvs sz ch) = (interleave kvs ch).map Prod.fst := rfl
      by_cases hb : (isRoot || decide (kvs.length ≥ O / 2 - 1)) = true
      · have hcond := (fillCond_true_iff isRoot kvs.length (O / 2 - 1)).mp hb
        have hRHS : (minFillB (O / 2 - 1) isRoot (BT.node kvs sz ch) &&
              chainOK last (keysOf (BT.node kvs sz ch)) &&
              internalSizesOKb (BT.node kvs sz ch)) = true ↔
            (minFillList (O / 2 - 1) ch = true ∧
              chainOK last ((interleave kvs ch).map Prod.fst) = true ∧
              internalSizesOKList ch = true ∧
              sz = (kvs.length : Int) + (ch.map sizeB).sum) := by
          simp only [minFillB, internalSizesOKb, hb, Bool.true_and, hkeys,
            Bool.and_eq_true, beq_iff_eq]
          tauto
        constructor
        · rw [hRHS]
          constructor
          · intro hok
            rw [doTrav, if_neg hcond] at hok
            cases hl : doTravList O kvs ch last with
            | error e =>
                rw [hl, except_bind_error] at hok
                exact Except.noConfusion hok
            | ok p =>
                have hp := hlist.2 p hl
                rw [hl, except_bind_ok] at hok
                subst hp
                dsimp only at hok
                by_cases hsz : (ch.map sizeB).sum + (kvs.length : Int) ≠ sz
                · rw [if_pos hsz] at hok
                  exact Except.noConfusion hok
                · have hl2 := hlist.1.mp hl
                  simp only [Bool.and_eq_true] at hl2
                  exact ⟨hl2.1.1, hl2.1.2, hl2.2, by omega⟩
          · intro hpred
            obtain ⟨hm, hc, hi, hsz⟩ := hpred
            have hl := hlist.1.mpr (by
              simp only [Bool.and_eq_true]
              exact ⟨⟨hm, hc⟩, hi⟩)
            rw [doTrav, if_neg hcond, hl, except_bind_ok]
            dsimp only
            rw [if_neg (by omega : ¬((ch.map sizeB).sum + (kvs.length : Int) ≠ sz))]
            rw [hkeys]
            rfl
        · intro x hx
          rw [doTrav, if_neg hcond] at hx
          cases hl : doTravList O kvs ch last with
          | error e =>
              rw [hl, except_bind_error] at hx
              exact Except.noConfusion hx
          | ok p =>
              have hp := hlist.2 p hl
              rw [hl, except_bind_ok] at hx
              subst hp
              dsimp only at hx
              by_cases hsz : (ch.map sizeB).sum + (kvs.length : Int) ≠ sz
              · rw [if_pos hsz] at hx
                exact Except.noConfusion hx
              · rw [if_neg hsz] at hx
                rw [hkeys]
                exact (Except.ok.inj hx).symm
      · have hb' : (isRoot || decide (kvs.length ≥ O / 2 - 1)) = false := by
          revert hb; cases (isRoot || decide (kvs.length ≥ O / 2 - 1)) <;> simp
        have hcond : ¬isRoot = true ∧ kvs.length < O / 2 - 1 := by
          by_contra hcon
          exact hb ((fillCond_true_iff isRoot kvs.length (O / 2 - 1)).mpr hcon)
        constructor
        · rw [doTrav, if_pos hcond]
          simp only [minFillB, hb']
          simp
        · intro x hx
          rw [doTrav, if_pos hcond] at hx
          exact Except.noConfusion hx
termination_by structural t

/-- The loop of `doTraverse` over separators and children, specified like
`doTrav_spec`; on success it also returns the sum of the children's stored
sizes. -/
theorem doTravList_spec (O : Nat) (kvs : List Entry) (ch : List BT)
    (last : Int) (hsh : shapeOKList ch = true)
    (hlen : ch.length = kvs.length + 1) :
    (doTravList O kvs ch last =
        .ok (lastOf last ((interleave kvs ch).map Prod.fst), (ch.map sizeB).sum) ↔
      (minFillList (O / 2 - 1) ch && chainOK last ((interleave kvs ch).map Prod.fst) &&
        internalSizesOKList ch) = true) ∧
    ∀ p, doTravList O kvs ch last = .ok p →
      p = (lastOf last ((interleave kvs ch).map Prod.fst), (ch.map sizeB).sum) := by
  match kvs, ch with
  | [], [c] =>
      have hc : shapeOKb c = true := by
        simp only [shapeOKList, Bool.and_eq_true] at hsh
        exact hsh.1
      have hspec := doTrav_spec O c false last hc
      have hil : interleave ([] : List Entry) [c] = toListB c := rfl
      have hsum : (([c] : List BT).map sizeB).sum = sizeB c := by simp
      have hRHS : (minFillList (O / 2 - 1) [c] &&
            chainOK last ((interleave ([] : List Entry) [c]).map Prod.fst) &&
            internalSizesOKList [c]) = true ↔
          (minFillB (O / 2 - 1) false c && chainOK last (keysOf c) &&
            internalSizesOKb c) = true := by
        simp only [minFillList, internalSizesOKList, hil, Bool.and_true,
          Bool.and_eq_true, keysOf] <;> tauto
      constructor
      · rw [hRHS, ← hspec.1]
        constructor
        · intro hok
          rw [doTravList] at hok
          cases hd : doTrav O c false last with
          | error e =>
              rw [hd, except_bind_error] at hok
              exact Except.noConfusion hok
          | ok x =>
              have hx := hspec.2 x hd
              subst hx
              rfl
        · intro hd
          rw [doTravList, hd, except_bind_ok] <;>
            simp [hil, keysOf, pure, Except.pure]
      · intro p hp
        rw [doTravList] at hp
        cases hd : doTrav O c false last with
        | error e =>
            rw [hd, except_bind_error] at hp
            exact Except.noConfusion hp
        | ok x =>
            have hx := hspec.2 x hd
            subst hx
            rw [hd, except_bind_ok] at hp
            rw [hil, hsum]
            simp only [keysOf] at hp ⊢
            exact ((Except.ok.inj hp).symm : _ = (_, _))
  | (k, v) :: kvs, c :: ch =>
      have hc : shapeOKb c = true ∧ shapeOKList ch = true := by
        simpa only [shapeOKList, Bool.and_eq_true] using hsh
      have hlen' : ch.length = kvs.length + 1 := by
        simpa using hlen
      have hspec := doTrav_spec O c false last hc.1
      have hrest := doTravList_spec O kvs ch k hc.2 hlen'
      have hkeys : (interleave ((k, v) :: kvs) (c :: ch)).map Prod.fst =
          keysOf c ++ k :: (interleave kvs ch).map Prod.fst := by
        simp [interleave, keysOf]
      have hchain : chainOK last ((interleave ((k, v) :: kvs) (c :: ch)).map Prod.fst) =
          (chainOK last (keysOf c) && (!decide (k < lastOf last (keysOf c))) &&
            chainOK k ((interleave kvs ch).map Prod.fst)) := by
        rw [hkeys, chainOK_append]
        simp [chainOK, Bool.and_assoc]
      have hlast : lastOf last ((interleave ((k, v) :: kvs) (c :: ch)).map Prod.fst) =
          lastOf k ((interleave kvs ch).map Prod.fst) := by
        rw [hkeys, lastOf_append, lastOf_cons]
      have hsum : ((c :: ch).map sizeB).sum = sizeB c + (ch.map sizeB).sum := by
        simp
      have hRHS : (minFillList (O / 2 - 1) (c :: ch) &&
            chainOK last ((interleave ((k, v) :: kvs) (c :: ch)).map Prod.fst) &&
            internalSizesOKList (c :: ch)) = true ↔
          ((minFillB (O / 2 - 1) false c && chainOK last (keysOf c) &&
              internalSizesOKb c) = true ∧
            ¬(k < lastOf last (keysOf c)) ∧
            (minFillList (O / 2 - 1) ch &&
              chainOK k ((interleave kvs ch).map Prod.fst) &&
              internalSizesOKList ch) = true) := by
        simp only [minFillList, internalSizesOKList, hchain, Bool.and_eq_true,
          Bool.not_eq_true', decide_eq_false_iff_not]
        tauto
      constructor
      · rw [hRHS, ← hspec.1, ← hrest.1]
        constructor
        · intro hok
          rw [doTravList] at hok
          cases hd : doTrav O c false last with
          | error e =>
              rw [hd, except_bind_error] at hok
              exact Except.noConfusion hok
          | ok x =>
              have hx := hspec.2 x hd
              subst hx
              rw [hd, except_bind_ok] at hok
              by_cases hk : k < lastOf last (keysOf c)
              · rw [if_pos hk] at hok
                exact Except.noConfusion hok
              · rw [if_neg hk] at hok
                cases hr : doTravList O kvs ch k with
                | error e =>
                    rw [hr, except_bind_error] at hok
                    exact Except.noConfusion hok
                | ok p =>
                    have hp := hrest.2 p hr
                    subst hp
                    exact ⟨rfl, hk, rfl⟩
        · rintro ⟨hd, hk, hr⟩
          rw [doTravList, hd, except_bind_ok, if_neg hk, hr, except_bind_ok] <;>
            simp [hlast, hsum, pure, Except.pure]
      · intro p hp
        rw [doTravList] at hp
        cases hd : doTrav O c false last with
        | error e =>
            rw [hd, except_bind_error] at hp
            exact Except.noConfusion hp
        | ok x =>
            have hx := hspec.2 x hd
            subst hx
            rw [hd, except_bind_ok] at hp
            by_cases hk : k < lastOf last (keysOf c)
            · rw [if_pos hk] at hp
              exact Except.noConfusion hp
            · rw [if_neg hk] at hp
              cases hr : doTravList O kvs ch k with
              | error e =>
                  rw [hr, except_bind_error] at hp
                  exact Except.noConfusion hp
              | ok q =>
                  have hq := hrest.2 q hr
                  subst hq
                  rw [hr, except_bind_ok] at hp
                  dsimp only at hp
                  rw [hlast, hsum]
                  exact (Except.ok.inj hp).symm
  | [], [] => simp at hlen
  | [], _ :: _ :: _ => simp at hlen
  | _ :: _, [] => simp at hlen
termination_by structural ch
end

/-- Claim C6 amended: `traverse` always runs its validation (the boolean
parameter only controls printing), and — on trees whose internal nodes carry
`length + 1` children, as all reachable trees do — it raises a
validation-failure condition (order violation, size mismatch or fill
violation) EXACTLY when: some non-root node has fewer than `⌊ORDER/2⌋ − 1`
keys, or some later key of the in-order walk (seeded with the sentinel `-1`)
is strictly LESS than the previous one (equal keys pass), or some internal
node's stored size differs from `length + Σ children.size`. -/
theorem c6_amended (O : Nat) (t : BT) (h : shapeOKb t = true) :
    (∃ x, traverseB O t = .ok x) ↔
      (minFillB (O / 2 - 1) true t = true ∧ chainOK (-1) (keysOf t) = true ∧
        internalSizesOKb t = true) := by
  have hspec := doTrav_spec O t true (-1) h
  constructor
  · rintro ⟨x, hx⟩
    have hx' := hspec.2 x hx
    subst hx'
    have := hspec.1.mp hx
    simp only [Bool.and_eq_true] at this
    exact ⟨this.1.1, this.1.2, this.2⟩
  · rintro ⟨h1, h2, h3⟩
    exact ⟨_, hspec.1.mpr (by simp [h1, h2, h3])⟩

/-- Witness for the amended claim C6 on a concrete well-shaped tree
(ORDER = 4): validation succeeds and the three predicates hold. -/
theorem c6_amended_witness :
    shapeOKb (BT.node [(2, 0)] 3 [.leaf [(1, 0)] 1, .leaf [(3, 0)] 1]) = true ∧
    (∃ x, traverseB 4 (BT.node [(2, 0)] 3 [.leaf [(1, 0)] 1, .leaf [(3, 0)] 1]) = .ok x) :=
  ⟨by decide,
   (c6_amended 4 (BT.node [(2, 0)] 3 [.leaf [(1, 0)] 1, .leaf [(3, 0)] 1])
      (by decide)).mpr ⟨by decide, by decide, by decide⟩⟩

/-- Claim C9 amended: when the removal pass leaves the root as an internal
node with zero keys, `remove` promotes the root's first (sole remaining)
child to be the new root and returns the removal verdict unchanged; the
promotion happens exactly once and is not repeated, so the new root can
itself be an internal node with zero keys (see the counterexample). -/
theorem c9_amended (O : Nat) (t : BT) (k : Int) (sz : Int)
    (ch : List BT) (r1 r2 : Bool) (oi : Option Int)
    (h : doRemove O (2 * heightB t + 8) t k = .ok (.node [] sz ch, r1, r2, oi)) :
    removeB O t k = .ok (ch.getD 0 dflt, r1) := by
  unfold removeB
  rw [h]
  rfl

/-- Witness for the amended claim C9 at the concrete state `c9pre` (reached
by the first eight operations of `c9ops`, see `c9_run_pre`): removing key 3
leaves a zero-key internal root, and the collapse promotes its sole child. -/
theorem c9_amended_witness :
    removeB 3 c9pre 3 = .ok (.node [] 1 [.leaf [(1, 77)] 1], true) :=
  c9_amended 3 c9pre 3 1 [.node [] 1 [.leaf [(1, 77)] 1]] true true none (by decide)


/-! ## Rank correctness on sorted trees (C2) -/

/-- Number of elements of a key list strictly below `k`. -/
def cntLT (l : List Int) (k : Int) : Nat := l.countP fun a => decide (a < k)

theorem countLT_eq_cntLT (t : BT) (k : Int) : countLT t k = cntLT (keysOf t) k := rfl

theorem getD_mem_of_lt {ch : List BT} {i : Nat} (h : i < ch.length) :
    ch.getD i dflt ∈ ch := by
  rw [List.getD_eq_getElem?_getD, List.getElem?_eq_getElem h]
  simpa using List.getElem_mem h

theorem sizesOKList_mem {ch : List BT} {c : BT} (h : sizesOKList ch = true)
    (hm : c ∈ ch) : sizesOKb c = true := by
  induction ch with
  | nil => cases hm
  | cons a cs ih =>
    simp only [sizesOKList, Bool.and_eq_true] at h
    cases hm with
    | head => exact h.1
    | tail _ hm => exact ih h.2 hm

theorem shapeOKList_mem {ch : List BT} {c : BT} (h : shapeOKList ch = true)
    (hm : c ∈ ch) : shapeOKb c = true := by
  induction ch with
  | nil => cases hm
  | cons a cs ih =>
    simp only [shapeOKList, Bool.and_eq_true] at h
    cases hm with
    | head => exact h.1
    | tail _ hm => exact ih h.2 hm

theorem heightB_le_heightList {ch : List BT} {c : BT} (hm : c ∈ ch) :
    heightB c ≤ heightList ch := by
  induction ch with
  | nil => cases hm
  | cons a cs ih =>
    cases hm with
    | head => simp [heightList]
    | tail _ hm => exact le_trans (ih hm) (by simp [heightList])

theorem interleave_length (kvs : List Entry) (ch : List BT)
    (h : ch.length = kvs.length + 1) :
    (interleave kvs ch).length = (ch.map fun c => (toListB c).length).sum + kvs.length := by
  match kvs, ch with
  | [], [] => simp at h
  | [], [c] => simp [interleave]
  | [], _ :: _ :: _ => simp at h
  | _ :: _, [] => simp at h
  | e :: kvs, c :: ch =>
    have h' : ch.length = kvs.length + 1 := by simpa using h
    have ih := interleave_length kvs ch h'
    simp [interleave, ih]
    omega
termination_by structural kvs

mutual
theorem sizeB_eq_length (t : BT) (hz : sizesOKb t = true) (hs : shapeOKb t = true) :
    sizeB t = ((toListB t).length : Int) := by
  match t with
  | .leaf kvs sz =>
      simp only [sizesOKb, beq_iff_eq] at hz
      simpa [sizeB, toListB] using hz
  | .node kvs sz ch =>
      simp only [sizesOKb, Bool.and_eq_true, beq_iff_eq] at hz
      simp only [shapeOKb, Bool.and_eq_true, beq_iff_eq] at hs
      have hil := interleave_length kvs ch hs.1
      have hsum := sizeList_eq_length ch hz.2 hs.2
      simp only [sizeB, toListB, hil]
      rw [hz.1, hsum]
      push_cast [List.map_map]
      simp only [Function.comp_def]
      ring
termination_by structural t

theorem sizeList_eq_length (ch : List BT) (hz : sizesOKList ch = true)
    (hs : shapeOKList ch = true) :
    (ch.map sizeB).sum = (ch.map fun c => ((toListB c).length : Int)).sum := by
  match ch with
  | [] => rfl
  | c :: cs =>
      simp only [sizesOKList, Bool.and_eq_true] at hz
      simp only [shapeOKList, Bool.and_eq_true] at hs
      simp [sizeB_eq_length c hz.1 hs.1, sizeList_eq_length cs hz.2 hs.2]
termination_by structural ch
end

theorem toListB_sublist_interleave (kvs : List Entry) (ch : List BT)
    (h : ch.length = kvs.length + 1) :
    ∀ c ∈ ch, List.Sublist (toListB c) (interleave kvs ch) := by
  match kvs, ch with
  | [], [] => simp at h
  | [], [c0] =>
      intro c hc
      simp only [List.mem_singleton] at hc
      subst hc
      simp [interleave]
  | [], _ :: _ :: _ => simp at h
  | _ :: _, [] => simp at h
  | e :: kvs, c0 :: ch =>
      intro c hc
      have h' : ch.length = kvs.length + 1 := by simpa using h
      rw [interleave]
      cases hc with
      | head => exact List.sublist_append_left _ _
      | tail _ hc =>
          exact ((toListB_sublist_interleave kvs ch h' c hc).trans
            (List.sublist_cons_self _ _)).trans (List.sublist_append_right _ _)
termination_by structural kvs

theorem sortedB_child {kvs : List Entry} {sz : Int} {ch : List BT} {c : BT}
    (hp : sortedB (.node kvs sz ch)) (hlen : ch.length = kvs.length + 1)
    (hc : c ∈ ch) : sortedB c := by
  have hsub := toListB_sublist_interleave kvs ch hlen c hc
  exact List.Pairwise.sublist (hsub.map Prod.fst) hp

theorem cntLT_eq_zero {l : List Int} {k x : Int} (hp : (x :: l).Pairwise (· < ·))
    (hx : ¬ x < k) : cntLT (x :: l) k = 0 := by
  rw [cntLT, List.countP_eq_zero]
  intro a ha
  simp only [decide_eq_true_eq]
  rcases List.mem_cons.mp ha with rfl | ha'
  · exact hx
  · have := List.rel_of_pairwise_cons hp ha'
    omega

theorem cntLT_eq_length {l : List Int} {k : Int} (h : ∀ a ∈ l, a < k) :
    cntLT l k = l.length := by
  rw [cntLT, List.countP_eq_length]
  intro a ha
  simpa using h a ha

theorem cntLT_leaf (kvs : List Entry) (k : Int)
    (hp : (kvs.map Prod.fst).Pairwise (· < ·)) :
    cntLT (kvs.map Prod.fst) k = locate kvs k := by
  match kvs with
  | [] => rfl
  | e :: kvs =>
      rw [List.map_cons] at hp
      by_cases he : e.1 < k
      · have ih := cntLT_leaf kvs k hp.of_cons
        simp only [locate] at ih ⊢
        simp [List.map_cons, cntLT, List.countP_cons, List.findIdx_cons, he] at ih ⊢
        omega
      · have h0 := cntLT_eq_zero hp he
        simp only [locate, List.findIdx_cons] at *
        simp [List.map_cons, he, h0]
termination_by structural kvs

theorem rank_count (kvs : List Entry) (ch : List BT) (k : Int)
    (h : ch.length = kvs.length + 1)
    (hz : sizesOKList ch = true) (hs : shapeOKList ch = true)
    (hp : ((interleave kvs ch).map Prod.fst).Pairwise (· < ·)) :
    (cntLT ((interleave kvs ch).map Prod.fst) k : Int) =
      (locate kvs k : Int) + ((ch.take (locate kvs k)).map sizeB).sum +
      (if locate kvs k < kvs.length ∧ ¬ k < (kvs.getD (locate kvs k) (0, 0)).1
       then sizeB (ch.getD (locate kvs k) dflt)
       else (cntLT (keysOf (ch.getD (locate kvs k) dflt)) k : Int)) := by
  match kvs, ch with
  | [], [] => simp at h
  | [], _ :: _ :: _ => simp at h
  | _ :: _, [] => simp at h
  | [], [c] => simp [interleave, locate, keysOf]
  | e :: kvs, c :: ch =>
      have h' : ch.length = kvs.length + 1 := by simpa using h
      simp only [sizesOKList, Bool.and_eq_true] at hz
      simp only [shapeOKList, Bool.and_eq_true] at hs
      rw [interleave, List.map_append, List.map_cons] at hp
      have hdec := List.pairwise_append.mp hp
      have hallc : ∀ x ∈ (toListB c).map Prod.fst, x < e.1 := fun x hx =>
        hdec.2.2 x hx e.1 (List.mem_cons_self _ _)
      have hsz : sizeB c = (((toListB c).map Prod.fst).length : Int) := by
        rw [sizeB_eq_length c hz.1 hs.1]; simp
      by_cases he : e.1 < k
      · -- the first separator is below `k`: shift the recursion by one
        have ih := rank_count kvs ch k h' hz.2 hs.2 hdec.2.1.of_cons
        have hcfull : cntLT ((toListB c).map Prod.fst) k =
            ((toListB c).map Prod.fst).length :=
          cntLT_eq_length fun a ha => lt_trans (hallc a ha) he
        have hloc : locate (e :: kvs) k = locate kvs k + 1 := by
          simp [locate, List.findIdx_cons, he]
        have h1 : (if (fun a => decide (a < k)) e.1 = true then 1 else 0) = 1 := by
          simp [he]
        rw [interleave, List.map_append, List.map_cons, hloc]
        rw [cntLT, List.countP_append, List.countP_cons, h1]
        rw [show (List.countP (fun a => decide (a < k)) ((toListB c).map Prod.fst)) =
              cntLT ((toListB c).map Prod.fst) k from rfl, hcfull]
        rw [show (List.countP (fun a => decide (a < k))
              ((interleave kvs ch).map Prod.fst)) =
              cntLT ((interleave kvs ch).map Prod.fst) k from rfl]
        simp only [List.getD_cons_succ, List.length_cons, add_lt_add_iff_right,
          List.take_succ_cons, List.map_cons, List.sum_cons]
        by_cases hcond : locate kvs k < kvs.length ∧
            ¬ k < (kvs.getD (locate kvs k) (0, 0)).1
        · rw [if_pos hcond] at ih
          rw [if_pos hcond]
          push_cast at ih ⊢
          rw [hsz]
          omega
        · rw [if_neg hcond] at ih
          rw [if_neg hcond]
          push_cast at ih ⊢
          rw [hsz]
          omega
      · -- the key belongs to the first child (or is the first separator)
        have hloc : locate (e :: kvs) k = 0 := by
          simp [locate, List.findIdx_cons, he]
        have hrest0 : cntLT (e.1 :: (interleave kvs ch).map Prod.fst) k = 0 :=
          cntLT_eq_zero hdec.2.1 he
        rw [interleave, List.map_append, List.map_cons, hloc]
        rw [cntLT, List.countP_append]
        rw [show (List.countP (fun a => decide (a < k)) ((toListB c).map Prod.fst)) =
              cntLT ((toListB c).map Prod.fst) k from rfl]
        rw [show (List.countP (fun a => decide (a < k))
              (e.1 :: (interleave kvs ch).map Prod.fst)) =
              cntLT (e.1 :: (interleave kvs ch).map Prod.fst) k from rfl, hrest0]
        simp only [List.take_zero, List.map_nil, List.sum_nil, List.getD_cons_zero,
          List.length_cons, Nat.cast_zero]
        by_cases hk : k < e.1
        · rw [if_neg (by simp [hk])]
          simp [keysOf]
        · rw [if_pos ⟨by omega, hk⟩]
          have hcfull : cntLT ((toListB c).map Prod.fst) k =
              ((toListB c).map Prod.fst).length :=
            cntLT_eq_length fun a ha => by have := hallc a ha; omega
          rw [hcfull, hsz]
          push_cast
          ring
termination_by structural kvs

theorem rankAux_spec (fuel : Nat) (t : BT) (k acc : Int) (hf : heightB t < fuel)
    (hp : sortedB t) (hz : sizesOKb t = true) (hs : shapeOKb t = true) :
    rankAux fuel t k acc = .ok (acc + (countLT t k : Int)) := by
  match fuel, t with
  | 0, t => exact absurd hf (by omega)
  | fuel + 1, .leaf kvs sz =>
      have hl : countLT (.leaf kvs sz) k = locate kvs k := cntLT_leaf kvs k hp
      rw [rankAux]
      simp only [kvsOf]
      rw [hl]
      split <;> simp [pure, Except.pure]
  | fuel + 1, .node kvs sz ch =>
      have hz' := hz
      have hs' := hs
      simp only [sizesOKb, Bool.and_eq_true, beq_iff_eq] at hz'
      simp only [shapeOKb, Bool.and_eq_true, beq_iff_eq] at hs'
      have hlen : ch.length = kvs.length + 1 := hs'.1
      have hcount := rank_count kvs ch k hlen hz'.2 hs'.2 hp
      have hidxle : locate kvs k < ch.length := by
        have h1 : kvs.findIdx (fun e => !decide (e.1 < k)) ≤ kvs.length :=
          List.findIdx_le_length _
        simp only [locate]
        omega
      have hmem : ch.getD (locate kvs k) dflt ∈ ch := getD_mem_of_lt hidxle
      rw [rankAux]
      simp only [kvsOf]
      by_cases hcond : locate kvs k < kvs.length ∧
          ¬ k < (kvs.getD (locate kvs k) (0, 0)).1
      · rw [if_pos hcond]
        rw [if_pos hcond] at hcount
        have hcnt : (countLT (.node kvs sz ch) k : Int) =
            (locate kvs k : Int) + ((ch.take (locate kvs k)).map sizeB).sum +
            sizeB (ch.getD (locate kvs k) dflt) := hcount
        rw [show (Except.ok (ε := Err)
              (acc + (countLT (BT.node kvs sz ch) k : Int))) =
              pure (acc + (countLT (BT.node kvs sz ch) k : Int)) from rfl]
        rw [hcnt]
        ring_nf
      · rw [if_neg hcond]
        rw [if_neg hcond] at hcount
        have hh : heightB (ch.getD (locate kvs k) dflt) < fuel := by
          have h1 := heightB_le_heightList hmem
          have h2 : heightB (.node kvs sz ch) = heightList ch + 1 := rfl
          rw [h2] at hf
          omega
        rw [rankAux_spec fuel (ch.getD (locate kvs k) dflt) k
              (acc + (locate kvs k : Int) + ((ch.take (locate kvs k)).map sizeB).sum)
              hh (sortedB_child hp hlen hmem) (sizesOKList_mem hz'.2 hmem)
              (shapeOKList_mem hs'.2 hmem)]
        have hcnt : (countLT (.node kvs sz ch) k : Int) =
            (locate kvs k : Int) + ((ch.take (locate kvs k)).map sizeB).sum +
            (countLT (ch.getD (locate kvs k) dflt) k : Int) := hcount
        rw [hcnt]
        congr 1
        ring
termination_by structural fuel

theorem cntLT_strict_mono {l : List Int} {a b : Int} (ha : a ∈ l) (hab : a < b) :
    cntLT l a < cntLT l b := by
  induction l with
  | nil => cases ha
  | cons x xs ih =>
    have hmono : xs.countP (fun y => decide (y < a)) ≤
        xs.countP (fun y => decide (y < b)) := by
      apply List.countP_mono_left
      intro y _ hy
      simp only [decide_eq_true_eq] at hy ⊢
      omega
    simp only [cntLT, List.countP_cons] at ih ⊢
    rcases List.mem_cons.mp ha with rfl | ha'
    · simp [show ¬ (a < a) from lt_irrefl a, hab]
      omega
    · have hxs := ih ha'
      by_cases hx : x < a
      · simp [hx, lt_trans hx hab]
        omega
      · by_cases hx' : x < b <;> simp [hx, hx'] <;> omega

/-- C2: on every well-formed tree (strictly sorted keys, consistent size
fields, consistent child counts) `getRank(k)` returns the number of stored
keys strictly less than `k`, and is therefore strictly monotone across the
keys present in the tree. -/
theorem c2_amended (t : BT) (k : Int) (hp : sortedB t) (hz : sizesOKb t = true)
    (hs : shapeOKb t = true) :
    rankB t k = (countLT t k : Int) ∧
    (∀ a b : Int, a ∈ keysOf t → b ∈ keysOf t → a < b → rankB t a < rankB t b) := by
  have main : ∀ k' : Int, rankB t k' = (countLT t k' : Int) := by
    intro k'
    unfold rankB
    rw [rankAux_spec (heightB t + 1) t k' 0 (by omega) hp hz hs]
    simp
  refine ⟨main k, ?_⟩
  intro a b ha hb hab
  rw [main a, main b]
  have := cntLT_strict_mono (l := keysOf t) ha hab
  rw [countLT_eq_cntLT, countLT_eq_cntLT]
  exact_mod_cast this

def c2w : BT := .node [(5, 0)] 4 [.leaf [(1, 0), (3, 0)] 2, .leaf [(7, 0)] 1]

theorem c2_amended_witness :
    rankB c2w 4 = (countLT c2w 4 : Int) ∧
    (∀ a b : Int, a ∈ keysOf c2w → b ∈ keysOf c2w → a < b →
      rankB c2w a < rankB c2w b) :=
  c2_amended c2w 4 (by decide) (by decide) (by decide)

/-! ## Insert correctness (C1): splitting preserves content, insertion adds
one entry -/

theorem insertIdx_perm {α : Type} (a : α) (l : List α) (i : Nat) (h : i ≤ l.length) :
    (l.insertIdx i a).Perm (a :: l) := by
  induction l generalizing i with
  | nil =>
    have : i = 0 := by simpa using h
    subst this
    simp [List.insertIdx_zero]
  | cons x xs ih =>
    cases i with
    | zero => simp [List.insertIdx_zero]
    | succ i =>
      rw [List.insertIdx_succ_cons]
      exact ((ih i (by simpa using h)).cons x).trans (List.Perm.swap a x xs)

theorem take_getD_drop {α : Type} (l : List α) (j : Nat) (d : α) (h : j < l.length) :
    l.take j ++ l.getD j d :: l.drop (j + 1) = l := by
  induction l generalizing j with
  | nil => simp at h
  | cons x xs ih =>
    cases j with
    | zero => simp
    | succ j =>
      simp only [List.take_succ_cons, List.getD_cons_succ, List.drop_succ_cons,
        List.cons_append, List.cons.injEq, true_and]
      exact ih j (by simpa using h)

theorem shapeOKList_iff {ch : List BT} :
    shapeOKList ch = true ↔ ∀ c ∈ ch, shapeOKb c = true := by
  induction ch with
  | nil => simp [shapeOKList]
  | cons a cs ih => simp [shapeOKList, Bool.and_eq_true, ih]

theorem sizesOKList_iff {ch : List BT} :
    sizesOKList ch = true ↔ ∀ c ∈ ch, sizesOKb c = true := by
  induction ch with
  | nil => simp [sizesOKList]
  | cons a cs ih => simp [sizesOKList, Bool.and_eq_true, ih]

theorem maxFillList_iff {O : Nat} {ch : List BT} :
    maxFillList O ch = true ↔ ∀ c ∈ ch, maxFillB O c = true := by
  induction ch with
  | nil => simp [maxFillList]
  | cons a cs ih => simp [maxFillList, Bool.and_eq_true, ih]

theorem heightList_le_of_subset {l₁ l₂ : List BT} (h : ∀ c ∈ l₁, c ∈ l₂) :
    heightList l₁ ≤ heightList l₂ := by
  induction l₁ with
  | nil => simp [heightList]
  | cons a cs ih =>
    simp only [heightList, max_le_iff]
    exact ⟨heightB_le_heightList (h a (List.mem_cons_self a cs)),
      ih fun c hc => h c (List.mem_cons_of_mem a hc)⟩

theorem set_insertIdx_getD_left (ch : List BT) (idx : Nat) (l r : BT)
    (h : idx < ch.length) :
    ((ch.set idx l).insertIdx (idx + 1) r).getD idx dflt = l := by
  induction ch generalizing idx with
  | nil => simp at h
  | cons c cs ih =>
    cases idx with
    | zero => simp [List.insertIdx_succ_cons]
    | succ idx =>
      simp only [List.set_cons_succ, List.insertIdx_succ_cons, List.getD_cons_succ]
      exact ih idx (by simpa using h)

theorem set_insertIdx_getD_right (ch : List BT) (idx : Nat) (l r : BT)
    (h : idx < ch.length) :
    ((ch.set idx l).insertIdx (idx + 1) r).getD (idx + 1) dflt = r := by
  induction ch generalizing idx with
  | nil => simp at h
  | cons c cs ih =>
    cases idx with
    | zero => simp [List.insertIdx_succ_cons]
    | succ idx =>
      simp only [List.set_cons_succ, List.insertIdx_succ_cons, List.getD_cons_succ]
      exact ih idx (by simpa using h)

theorem mem_set_insertIdx {ch : List BT} {idx : Nat} {l r c : BT}
    (h : idx < ch.length)
    (hm : c ∈ (ch.set idx l).insertIdx (idx + 1) r) : c = l ∨ c = r ∨ c ∈ ch := by
  have hle : idx + 1 ≤ (ch.set idx l).length := by
    rw [List.length_set]; omega
  rcases (List.mem_insertIdx hle).mp hm with rfl | hm'
  · exact Or.inr (Or.inl rfl)
  · rcases List.mem_or_eq_of_mem_set hm' with h1 | h1
    · exact Or.inr (Or.inr h1)
    · exact Or.inl h1

theorem map_sum_set (f : BT → Int) (ch : List BT) (idx : Nat) (b : BT)
    (h : idx < ch.length) :
    ((ch.set idx b).map f).sum = (ch.map f).sum - f (ch.getD idx dflt) + f b := by
  induction ch generalizing idx with
  | nil => simp at h
  | cons c cs ih =>
    cases idx with
    | zero => simp [List.set_cons_zero]; ring
    | succ idx =>
      simp only [List.set_cons_succ, List.map_cons, List.sum_cons, List.getD_cons_succ]
      rw [ih idx (by simpa using h)]
      ring

theorem map_sum_insertIdx (f : BT → Int) (ch : List BT) (i : Nat) (b : BT)
    (h : i ≤ ch.length) :
    ((ch.insertIdx i b).map f).sum = (ch.map f).sum + f b := by
  have hperm := (insertIdx_perm b ch i h).map f
  rw [hperm.sum_eq]
  simp
  ring

theorem interleave_split (kvs : List Entry) (ch : List BT) (j : Nat)
    (hlen : ch.length = kvs.length + 1) (hj : j < kvs.length) :
    interleave kvs ch =
      interleave (kvs.take j) (ch.take (j + 1)) ++
        kvs.getD j (0, 0) :: interleave (kvs.drop (j + 1)) (ch.drop (j + 1)) := by
  match kvs, ch, j with
  | [], _, j => simp at hj
  | e :: kvs, [], j => simp at hlen
  | e :: kvs, c :: ch, 0 =>
      simp [interleave]
  | e :: kvs, c :: ch, j + 1 =>
      have hlen' : ch.length = kvs.length + 1 := by simpa using hlen
      have ih := interleave_split kvs ch j hlen' (by simpa using hj)
      simp only [List.take_succ_cons, List.getD_cons_succ, List.drop_succ_cons]
      simp only [interleave]
      rw [ih]
      simp [List.append_assoc]
termination_by structural kvs

theorem interleave_set_insert (kvs : List Entry) (ch : List BT) (idx : Nat)
    (hlen : ch.length = kvs.length + 1) (hidx : idx < ch.length)
    (m : Entry) (l r : BT)
    (hc : toListB l ++ m :: toListB r = toListB (ch.getD idx dflt)) :
    interleave (kvs.insertIdx idx m) ((ch.set idx l).insertIdx (idx + 1) r) =
      interleave kvs ch := by
  match kvs, ch, idx with
  | _, [], _ => simp at hidx
  | [], c :: ch, 0 =>
      have hch : ch = [] := by simpa using hlen
      subst hch
      simp only [List.getD_cons_zero] at hc
      simp only [List.insertIdx_zero, List.set_cons_zero, List.insertIdx_succ_cons]
      simp only [interleave]
      simpa using hc
  | [], c :: ch, idx + 1 =>
      have : ch = [] := by simpa using hlen
      subst this
      simp at hidx
  | e :: kvs, c :: ch, 0 =>
      simp only [List.getD_cons_zero] at hc
      simp only [List.insertIdx_zero, List.set_cons_zero, List.insertIdx_succ_cons]
      simp only [interleave]
      rw [← hc]
      simp [List.append_assoc]
  | e :: kvs, c :: ch, idx + 1 =>
      have hlen' : ch.length = kvs.length + 1 := by simpa using hlen
      have ih := interleave_set_insert kvs ch idx hlen' (by simpa using hidx) m l r
        (by simpa using hc)
      simp only [List.insertIdx_succ_cons, List.set_cons_succ]
      simp only [interleave]
      rw [ih]
termination_by structural kvs

theorem interleave_set_perm (kvs : List Entry) (ch : List BT) (idx : Nat)
    (hlen : ch.length = kvs.length + 1) (hidx : idx < ch.length)
    (e0 : Entry) (c' : BT)
    (hc : (toListB c').Perm (e0 :: toListB (ch.getD idx dflt))) :
    (interleave kvs (ch.set idx c')).Perm (e0 :: interleave kvs ch) := by
  match kvs, ch, idx with
  | _, [], _ => simp at hidx
  | [], c :: ch, 0 =>
      have hch : ch = [] := by simpa using hlen
      subst hch
      simp only [List.getD_cons_zero] at hc
      simpa [List.set_cons_zero, interleave] using hc
  | [], c :: ch, idx + 1 =>
      have : ch = [] := by simpa using hlen
      subst this
      simp at hidx
  | e :: kvs, c :: ch, 0 =>
      simp only [List.getD_cons_zero] at hc
      simp only [List.set_cons_zero]
      simp only [interleave]
      have h2 := hc.append_right (e :: interleave kvs ch)
      rw [List.cons_append] at h2
      exact h2
  | e :: kvs, c :: ch, idx + 1 =>
      have hlen' : ch.length = kvs.length + 1 := by simpa using hlen
      have ih := interleave_set_perm kvs ch idx hlen' (by simpa using hidx) e0 c'
        (by simpa using hc)
      simp only [List.set_cons_succ]
      simp only [interleave]
      have h2 := (ih.cons e).append_left (toListB c)
      refine h2.trans ?_
      have h3 : toListB c ++ e :: e0 :: interleave kvs ch =
          (toListB c ++ [e]) ++ e0 :: interleave kvs ch := by simp
      rw [h3]
      refine List.perm_middle.trans ?_
      simp [List.append_assoc]
termination_by structural kvs
theorem sameH_iff {h : Nat} {l : List BT} :
    sameH h l = true ↔ ∀ c ∈ l, heightB c = h := by
  induction l with
  | nil => simp [sameH]
  | cons a cs ih => simp [sameH, Bool.and_eq_true, ih]

theorem balancedList_iff {l : List BT} :
    balancedList l = true ↔ ∀ c ∈ l, balancedB c = true := by
  induction l with
  | nil => simp [balancedList]
  | cons a cs ih => simp [balancedList, Bool.and_eq_true, ih]

theorem heightList_sameH {h : Nat} {l : List BT} (hs : sameH h l = true)
    (hne : l ≠ []) : heightList l = h := by
  induction l with
  | nil => exact absurd rfl hne
  | cons a cs ih =>
    simp only [sameH, Bool.and_eq_true, beq_iff_eq] at hs
    cases cs with
    | nil => simp [heightList, hs.1]
    | cons b bs =>
      rw [heightList, hs.1, ih hs.2 (by simp)]
      simp

theorem heightList_set_eq {ch : List BT} {j : Nat} {c' : BT}
    (hj : j < ch.length) (hh : heightB c' = heightB (ch.getD j dflt)) :
    heightList (ch.set j c') = heightList ch := by
  induction ch generalizing j with
  | nil => simp at hj
  | cons a cs ih =>
    cases j with
    | zero =>
      simp only [List.getD_cons_zero] at hh
      simp [List.set_cons_zero, heightList, hh]
    | succ j =>
      simp only [List.getD_cons_succ] at hh
      simp only [List.set_cons_succ, heightList]
      rw [ih (by simpa using hj) hh]

theorem splitChild_facts (O : Nat) (kvs : List Entry) (ch : List BT) (idx : Nat)
    (c : BT) (hgc : ch.getD idx dflt = c) (hO : 3 ≤ O)
    (hshape : shapeOKb c = true) (hmax : maxFillB O c = true)
    (hfull : lenOf c = O - 1) :
    ∃ left right,
      splitChild O kvs ch idx =
        (kvs.insertIdx idx ((kvsOf c).getD (O / 2 - 1) (0, 0)),
         (ch.set idx left).insertIdx (idx + 1) right) ∧
      toListB left ++ (kvsOf c).getD (O / 2 - 1) (0, 0) :: toListB right = toListB c ∧
      shapeOKb left = true ∧ shapeOKb right = true ∧
      maxFillB O left = true ∧ maxFillB O right = true ∧
      lenOf left < O - 1 ∧ lenOf right < O - 1 ∧
      heightB left ≤ heightB c ∧ heightB right ≤ heightB c ∧
      sizeB left = sizeB c - (sizeB right + 1) ∧
      (sizesOKb c = true → sizesOKb left = true ∧ sizesOKb right = true) ∧
      (balancedB c = true → balancedB left = true ∧ balancedB right = true ∧
        heightB left = heightB c ∧ heightB right = heightB c) := by
  have hn1 : 1 ≤ O / 2 := by omega
  have hn2 : O / 2 ≤ O - 2 := by omega
  match c with
  | .leaf kvsC csz =>
    simp only [lenOf, kvsOf] at hfull
    refine ⟨.leaf (kvsC.take (O / 2 - 1)) (csz - (((O : Int) - 1 - (O / 2 : Nat)) + 1)),
      .leaf (kvsC.drop (O / 2)) ((O : Int) - 1 - (O / 2 : Nat)), ?_, ?_, ?_, ?_, ?_, ?_,
      ?_, ?_, ?_, ?_, ?_, ?_, ?_⟩
    · have hgc2 : ch[idx]?.getD dflt = BT.leaf kvsC csz := by
        rw [← List.getD_eq_getElem?_getD]; exact hgc
      simp [splitChild, hgc, hgc2, kvsOf, sizeB]
    · simp only [toListB, kvsOf]
      have h1 : O / 2 - 1 + 1 = O / 2 := by omega
      have := take_getD_drop kvsC (O / 2 - 1) (0, 0) (by omega)
      rw [h1] at this
      exact this
    · rfl
    · rfl
    · simp only [maxFillB, decide_eq_true_eq, List.length_take]
      omega
    · simp only [maxFillB, decide_eq_true_eq, List.length_drop]
      omega
    · simp only [lenOf, kvsOf, List.length_take]
      omega
    · simp only [lenOf, kvsOf, List.length_drop]
      omega
    · simp [heightB]
    · simp [heightB]
    · simp only [sizeB]
    · intro hz
      simp only [sizesOKb, beq_iff_eq] at hz ⊢
      constructor
      · simp only [List.length_take]
        omega
      · simp only [List.length_drop]
        omega
    · intro hb
      exact ⟨rfl, rfl, rfl, rfl⟩
  | .node kvsC csz cch =>
    simp only [lenOf, kvsOf] at hfull
    simp only [shapeOKb, Bool.and_eq_true, beq_iff_eq] at hshape
    simp only [maxFillB, Bool.and_eq_true, decide_eq_true_eq] at hmax
    have hcchlen : cch.length = O := by omega
    refine ⟨.node (kvsC.take (O / 2 - 1))
        (csz - (sizeB (.node (kvsC.drop (O / 2))
          (((O : Int) - 1 - (O / 2 : Nat)) + ((cch.drop (O / 2)).map sizeB).sum)
          (cch.drop (O / 2))) + 1))
        (cch.take (O / 2)),
      .node (kvsC.drop (O / 2))
        (((O : Int) - 1 - (O / 2 : Nat)) + ((cch.drop (O / 2)).map sizeB).sum)
        (cch.drop (O / 2)), ?_, ?_, ?_, ?_, ?_, ?_, ?_, ?_, ?_, ?_, ?_, ?_, ?_⟩
    · have hgc2 : ch[idx]?.getD dflt = BT.node kvsC csz cch := by
        rw [← List.getD_eq_getElem?_getD]; exact hgc
      simp [splitChild, hgc, hgc2, kvsOf, sizeB]
    · simp only [toListB, kvsOf]
      have h1 : O / 2 - 1 + 1 = O / 2 := by omega
      have := interleave_split kvsC cch (O / 2 - 1) hshape.1 (by omega)
      rw [h1] at this
      exact this.symm
    · simp only [shapeOKb, Bool.and_eq_true, beq_iff_eq]
      refine ⟨by simp [List.length_take]; omega, ?_⟩
      exact shapeOKList_iff.mpr fun x hx =>
        shapeOKList_iff.mp hshape.2 x (List.take_subset _ _ hx)
    · simp only [shapeOKb, Bool.and_eq_true, beq_iff_eq]
      refine ⟨by simp [List.length_drop]; omega, ?_⟩
      exact shapeOKList_iff.mpr fun x hx =>
        shapeOKList_iff.mp hshape.2 x (List.drop_subset _ _ hx)
    · simp only [maxFillB, Bool.and_eq_true, decide_eq_true_eq]
      refine ⟨by simp [List.length_take]; omega, ?_⟩
      exact maxFillList_iff.mpr fun x hx =>
        maxFillList_iff.mp hmax.2 x (List.take_subset _ _ hx)
    · simp only [maxFillB, Bool.and_eq_true, decide_eq_true_eq]
      refine ⟨by simp [List.length_drop]; omega, ?_⟩
      exact maxFillList_iff.mpr fun x hx =>
        maxFillList_iff.mp hmax.2 x (List.drop_subset _ _ hx)
    · simp only [lenOf, kvsOf, List.length_take]
      omega
    · simp only [lenOf, kvsOf, List.length_drop]
      omega
    · simp only [heightB]
      have := heightList_le_of_subset (List.take_subset (O / 2) cch)
      omega
    · simp only [heightB]
      have := heightList_le_of_subset (List.drop_subset (O / 2) cch)
      omega
    · simp only [sizeB]
    · intro hz
      simp only [sizesOKb, Bool.and_eq_true, beq_iff_eq] at hz ⊢
      have hsplitsum : ((cch.take (O / 2)).map sizeB).sum +
          ((cch.drop (O / 2)).map sizeB).sum = (cch.map sizeB).sum := by
        conv_rhs => rw [← List.take_append_drop (O / 2) cch]
        rw [List.map_append, List.sum_append]
      have hzl : sizesOKList (cch.take (O / 2)) = true :=
        sizesOKList_iff.mpr fun x hx =>
          sizesOKList_iff.mp hz.2 x (List.take_subset _ _ hx)
      have hzr : sizesOKList (cch.drop (O / 2)) = true :=
        sizesOKList_iff.mpr fun x hx =>
          sizesOKList_iff.mp hz.2 x (List.drop_subset _ _ hx)
      refine ⟨⟨?_, hzl⟩, ⟨?_, hzr⟩⟩
      · simp only [sizeB, List.length_take]
        rw [hz.1]
        omega
      · simp only [List.length_drop]
        omega
    · intro hb
      simp only [balancedB, Bool.and_eq_true] at hb
      have hnet : cch.take (O / 2) ≠ [] := by
        intro hcon
        have h2 : (cch.take (O / 2)).length = O / 2 := by
          rw [List.length_take]
          omega
        rw [hcon] at h2
        simp only [List.length_nil] at h2
        omega
      have hned : cch.drop (O / 2) ≠ [] := by
        intro hcon
        have h2 : (cch.drop (O / 2)).length = O - O / 2 := by
          rw [List.length_drop]
          omega
        rw [hcon] at h2
        simp only [List.length_nil] at h2
        omega
      have hst : sameH (heightList cch) (cch.take (O / 2)) = true :=
        sameH_iff.mpr fun x hx => sameH_iff.mp hb.2 x (List.take_subset _ _ hx)
      have hsd : sameH (heightList cch) (cch.drop (O / 2)) = true :=
        sameH_iff.mpr fun x hx => sameH_iff.mp hb.2 x (List.drop_subset _ _ hx)
      have hht : heightList (cch.take (O / 2)) = heightList cch :=
        heightList_sameH hst hnet
      have hhd : heightList (cch.drop (O / 2)) = heightList cch :=
        heightList_sameH hsd hned
      refine ⟨?_, ?_, ?_, ?_⟩
      · simp only [balancedB, Bool.and_eq_true]
        refine ⟨balancedList_iff.mpr fun x hx => balancedList_iff.mp hb.1 x
          (List.take_subset _ _ hx), ?_⟩
        rw [hht]
        exact hst
      · simp only [balancedB, Bool.and_eq_true]
        refine ⟨balancedList_iff.mpr fun x hx => balancedList_iff.mp hb.1 x
          (List.drop_subset _ _ hx), ?_⟩
        rw [hhd]
        exact hsd
      · simp only [heightB, hht]
      · simp only [heightB, hhd]

theorem maxFill_lenOf {O : Nat} {c : BT} (h : maxFillB O c = true) : lenOf c ≤ O - 1 := by
  cases c with
  | leaf kvs sz => simpa [maxFillB, lenOf, kvsOf] using h
  | node kvs sz ch =>
      simp only [maxFillB, Bool.and_eq_true, decide_eq_true_eq] at h
      simpa [lenOf, kvsOf] using h.1

theorem node_rebuild (O : Nat) (k v : Int) (kvs2 : List Entry) (sz : Int)
    (ch2 : List BT) (j : Nat) (c'' : BT)
    (hj : j < ch2.length) (hlen2 : ch2.length = kvs2.length + 1)
    (hkmax : kvs2.length ≤ O - 1)
    (hallsh : shapeOKList ch2 = true) (hallmx : maxFillList O ch2 = true)
    (hshp2 : shapeOKb c'' = true) (hmax2 : maxFillB O c'' = true)
    (hperm : (toListB c'').Perm ((k, v) :: toListB (ch2.getD j dflt)))
    (hsz2 : sizeB c'' = sizeB (ch2.getD j dflt) + 1) :
    (toListB (BT.node kvs2 (sz + 1) (ch2.set j c''))).Perm
        ((k, v) :: interleave kvs2 ch2) ∧
    shapeOKb (BT.node kvs2 (sz + 1) (ch2.set j c'')) = true ∧
    maxFillB O (BT.node kvs2 (sz + 1) (ch2.set j c'')) = true ∧
    (sz = (kvs2.length : Int) + (ch2.map sizeB).sum →
      sizesOKList ch2 = true → sizesOKb c'' = true →
      sizesOKb (BT.node kvs2 (sz + 1) (ch2.set j c'')) = true) ∧
    (balancedList ch2 = true → sameH (heightList ch2) ch2 = true →
      balancedB c'' = true → heightB c'' = heightB (ch2.getD j dflt) →
      balancedB (BT.node kvs2 (sz + 1) (ch2.set j c'')) = true ∧
      heightB (BT.node kvs2 (sz + 1) (ch2.set j c'')) = heightList ch2 + 1) := by
  refine ⟨?_, ?_, ?_, ?_, ?_⟩
  · simpa only [toListB] using interleave_set_perm kvs2 ch2 j hlen2 hj (k, v) c'' hperm
  · simp only [shapeOKb, Bool.and_eq_true, beq_iff_eq, List.length_set]
    refine ⟨hlen2, shapeOKList_iff.mpr fun x hx => ?_⟩
    rcases List.mem_or_eq_of_mem_set hx with h1 | h1
    · exact shapeOKList_iff.mp hallsh x h1
    · subst h1; exact hshp2
  · simp only [maxFillB, Bool.and_eq_true, decide_eq_true_eq]
    refine ⟨hkmax, maxFillList_iff.mpr fun x hx => ?_⟩
    rcases List.mem_or_eq_of_mem_set hx with h1 | h1
    · exact maxFillList_iff.mp hallmx x h1
    · subst h1; exact hmax2
  · intro hsz0 hzl hzc
    simp only [sizesOKb, Bool.and_eq_true, beq_iff_eq]
    constructor
    · rw [map_sum_set sizeB ch2 j c'' hj]
      omega
    · refine sizesOKList_iff.mpr fun x hx => ?_
      rcases List.mem_or_eq_of_mem_set hx with h1 | h1
      · exact sizesOKList_iff.mp hzl x h1
      · subst h1; exact hzc
  · intro hbl hsh hbc hhc
    have hgd : heightB (ch2.getD j dflt) = heightList ch2 :=
      sameH_iff.mp hsh _ (getD_mem_of_lt hj)
    have hsh' : sameH (heightList ch2) (ch2.set j c'') = true := by
      refine sameH_iff.mpr fun x hx => ?_
      rcases List.mem_or_eq_of_mem_set hx with h1 | h1
      · exact sameH_iff.mp hsh x h1
      · subst h1
        rw [hhc, hgd]
    have hne : ch2.set j c'' ≠ [] := by
      intro hcon
      have := congrArg List.length hcon
      rw [List.length_set] at this
      simp only [List.length_nil] at this
      omega
    have hhl : heightList (ch2.set j c'') = heightList ch2 :=
      heightList_sameH hsh' hne
    constructor
    · simp only [balancedB, Bool.and_eq_true]
      refine ⟨balancedList_iff.mpr fun x hx => ?_, ?_⟩
      · rcases List.mem_or_eq_of_mem_set hx with h1 | h1
        · exact balancedList_iff.mp hbl x h1
        · subst h1; exact hbc
      · rw [hhl]
        exact hsh'
    · simp only [heightB, hhl]

theorem insertNonFull_spec (O : Nat) (fuel : Nat) (t : BT) (k v : Int) (hO : 3 ≤ O)
    (hf : heightB t < fuel) (hs : shapeOKb t = true) (hm : maxFillB O t = true)
    (hlen : lenOf t < O - 1) :
    ∃ t', insertNonFull O fuel t k v = .ok t' ∧
      (toListB t').Perm ((k, v) :: toListB t) ∧
      sizeB t' = sizeB t + 1 ∧
      shapeOKb t' = true ∧ maxFillB O t' = true ∧
      (sizesOKb t = true → sizesOKb t' = true) ∧
      (balancedB t = true → balancedB t' = true ∧ heightB t' = heightB t) := by
  match fuel, t with
  | 0, t => exact absurd hf (by omega)
  | fuel + 1, .leaf kvs sz =>
      simp only [lenOf, kvsOf] at hlen
      have hloc : locate kvs k ≤ kvs.length := List.findIdx_le_length _
      refine ⟨.leaf (kvs.insertIdx (locate kvs k) (k, v)) (sz + 1),
        ?_, ?_, ?_, ?_, ?_, ?_, ?_⟩
      · rw [insertNonFull]
        rw [if_neg (by omega)]
        rfl
      · simpa [toListB] using insertIdx_perm (k, v) kvs (locate kvs k) hloc
      · rfl
      · rfl
      · simp only [maxFillB, decide_eq_true_eq]
        rw [List.length_insertIdx _ _ hloc]
        omega
      · intro hz
        simp only [sizesOKb, beq_iff_eq] at hz ⊢
        rw [List.length_insertIdx _ _ hloc]
        omega
      · intro hb
        exact ⟨rfl, rfl⟩
  | fuel + 1, .node kvs sz ch =>
      have hs' := hs
      have hm' := hm
      simp only [shapeOKb, Bool.and_eq_true, beq_iff_eq] at hs'
      simp only [maxFillB, Bool.and_eq_true, decide_eq_true_eq] at hm'
      simp only [lenOf, kvsOf] at hlen
      have hchlen : ch.length = kvs.length + 1 := hs'.1
      have hloc : locate kvs k ≤ kvs.length := List.findIdx_le_length _
      have hidx : locate kvs k < ch.length := by omega
      have hcmem : ch.getD (locate kvs k) dflt ∈ ch := getD_mem_of_lt hidx
      have hcs : shapeOKb (ch.getD (locate kvs k) dflt) = true :=
        shapeOKList_iff.mp hs'.2 _ hcmem
      have hcm : maxFillB O (ch.getD (locate kvs k) dflt) = true :=
        maxFillList_iff.mp hm'.2 _ hcmem
      have hch : heightB (ch.getD (locate kvs k) dflt) < fuel := by
        have h1 := heightB_le_heightList hcmem
        have h2 : heightB (.node kvs sz ch) = heightList ch + 1 := rfl
        rw [h2] at hf
        omega
      by_cases hfull : lenOf (ch.getD (locate kvs k) dflt) = O - 1
      · obtain ⟨left, right, heq, hcontent, hsl, hsr, hml2, hmr2, hll, hlr,
          hhl, hhr, hszl, hzimp, hbalsp⟩ :=
          splitChild_facts O kvs ch (locate kvs k) _ rfl hO hcs hcm hfull
        have hkvs'len :
            (kvs.insertIdx (locate kvs k)
              ((kvsOf (ch.getD (locate kvs k) dflt)).getD (O / 2 - 1) (0, 0))).length =
              kvs.length + 1 := List.length_insertIdx _ _ hloc
        have hsetlen : (ch.set (locate kvs k) left).length = ch.length :=
          List.length_set ch _ _
        have hch'len :
            ((ch.set (locate kvs k) left).insertIdx (locate kvs k + 1) right).length =
              ch.length + 1 := by
          rw [List.length_insertIdx _ _ (by omega), hsetlen]
        have hsum1 : ((ch.set (locate kvs k) left).map sizeB).sum =
            (ch.map sizeB).sum - sizeB (ch.getD (locate kvs k) dflt) + sizeB left :=
          map_sum_set sizeB ch _ left hidx
        have hsum2 :
            (((ch.set (locate kvs k) left).insertIdx (locate kvs k + 1) right).map
              sizeB).sum =
            ((ch.set (locate kvs k) left).map sizeB).sum + sizeB right :=
          map_sum_insertIdx sizeB _ _ right (by omega)
        have hall2sh :
            shapeOKList ((ch.set (locate kvs k) left).insertIdx (locate kvs k + 1)
              right) = true := by
          refine shapeOKList_iff.mpr fun x hx => ?_
          rcases mem_set_insertIdx hidx hx with rfl | rfl | h1
          · exact hsl
          · exact hsr
          · exact shapeOKList_iff.mp hs'.2 x h1
        have hall2mx :
            maxFillList O ((ch.set (locate kvs k) left).insertIdx (locate kvs k + 1)
              right) = true := by
          refine maxFillList_iff.mpr fun x hx => ?_
          rcases mem_set_insertIdx hidx hx with rfl | rfl | h1
          · exact hml2
          · exact hmr2
          · exact maxFillList_iff.mp hm'.2 x h1
        have hinterleq :
            interleave (kvs.insertIdx (locate kvs k)
                ((kvsOf (ch.getD (locate kvs k) dflt)).getD (O / 2 - 1) (0, 0)))
              ((ch.set (locate kvs k) left).insertIdx (locate kvs k + 1) right) =
              interleave kvs ch :=
          interleave_set_insert kvs ch (locate kvs k) hchlen hidx _ left right hcontent
        by_cases hdir :
            ((kvs.insertIdx (locate kvs k)
              ((kvsOf (ch.getD (locate kvs k) dflt)).getD (O / 2 - 1) (0, 0))).getD
                (locate kvs k) (0, 0)).1 < k
        · -- descend into the right half
          obtain ⟨c'', hok, hperm, hsz2, hshp2, hmax2, hzi, hhbih⟩ :=
            insertNonFull_spec O fuel right k v hO (by omega) hsr hmr2 hlr
          have hgetr :
              ((ch.set (locate kvs k) left).insertIdx (locate kvs k + 1)
                right).getD (locate kvs k + 1) dflt = right :=
            set_insertIdx_getD_right ch _ left right hidx
          have hreb := node_rebuild O k v
            (kvs.insertIdx (locate kvs k)
              ((kvsOf (ch.getD (locate kvs k) dflt)).getD (O / 2 - 1) (0, 0)))
            sz
            ((ch.set (locate kvs k) left).insertIdx (locate kvs k + 1) right)
            (locate kvs k + 1) c'' (by omega) (by omega) (by omega)
            hall2sh hall2mx hshp2 hmax2 (by rw [hgetr]; exact hperm)
            (by rw [hgetr]; exact hsz2)
          refine ⟨.node (kvs.insertIdx (locate kvs k)
              ((kvsOf (ch.getD (locate kvs k) dflt)).getD (O / 2 - 1) (0, 0)))
              (sz + 1)
              (((ch.set (locate kvs k) left).insertIdx (locate kvs k + 1)
                right).set (locate kvs k + 1) c''), ?_, ?_, ?_, ?_, ?_, ?_, ?_⟩
          · rw [insertNonFull]
            rw [if_pos hfull, heq]
            dsimp only
            rw [if_pos (by simpa using hdir)]
            rw [hgetr, hok, except_bind_ok]
            rfl
          · refine hreb.1.trans ?_
            rw [hinterleq]
            exact List.Perm.refl _
          · rfl
          · exact hreb.2.1
          · exact hreb.2.2.1
          · intro hz
            simp only [sizesOKb, Bool.and_eq_true, beq_iff_eq] at hz
            have hzc0 : sizesOKb (ch.getD (locate kvs k) dflt) = true :=
              sizesOKList_iff.mp hz.2 _ hcmem
            refine hreb.2.2.2.1 ?_ ?_ (hzi (hzimp hzc0).2)
            · rw [hkvs'len, hsum2, hsum1]
              push_cast
              rw [hz.1]
              omega
            · refine sizesOKList_iff.mpr fun x hx => ?_
              rcases mem_set_insertIdx hidx hx with rfl | rfl | h1
              · exact (hzimp hzc0).1
              · exact (hzimp hzc0).2
              · exact sizesOKList_iff.mp hz.2 x h1
          · intro hb
            simp only [balancedB, Bool.and_eq_true] at hb
            have hcbal : balancedB (ch.getD (locate kvs k) dflt) = true :=
              balancedList_iff.mp hb.1 _ hcmem
            obtain ⟨hbl2, hbr2, hhleq, hhreq⟩ := hbalsp hcbal
            have hgd : heightB (ch.getD (locate kvs k) dflt) = heightList ch :=
              sameH_iff.mp hb.2 _ hcmem
            have hbl3 : balancedList ((ch.set (locate kvs k) left).insertIdx
                (locate kvs k + 1) right) = true := by
              refine balancedList_iff.mpr fun x hx => ?_
              rcases mem_set_insertIdx hidx hx with rfl | rfl | h1
              · exact hbl2
              · exact hbr2
              · exact balancedList_iff.mp hb.1 x h1
            have hsh2 : sameH (heightList ch) ((ch.set (locate kvs k) left).insertIdx
                (locate kvs k + 1) right) = true := by
              refine sameH_iff.mpr fun x hx => ?_
              rcases mem_set_insertIdx hidx hx with rfl | rfl | h1
              · rw [hhleq, hgd]
              · rw [hhreq, hgd]
              · exact sameH_iff.mp hb.2 x h1
            have hne3 : ((ch.set (locate kvs k) left).insertIdx (locate kvs k + 1)
                right) ≠ [] := by
              intro hcon
              have := congrArg List.length hcon
              rw [hch'len] at this
              simp at this
            have hhl3 : heightList ((ch.set (locate kvs k) left).insertIdx
                (locate kvs k + 1) right) = heightList ch :=
              heightList_sameH hsh2 hne3
            obtain ⟨hbc2, hhc2⟩ := hhbih hbr2
            have h5 := hreb.2.2.2.2 hbl3 (by rw [hhl3]; exact hsh2) hbc2
              (by rw [hgetr]; exact hhc2)
            refine ⟨h5.1, ?_⟩
            rw [h5.2, hhl3]
            rfl
        · -- descend into the left half
          obtain ⟨c'', hok, hperm, hsz2, hshp2, hmax2, hzi, hhbih⟩ :=
            insertNonFull_spec O fuel left k v hO (by omega) hsl hml2 hll
          have hgetl :
              ((ch.set (locate kvs k) left).insertIdx (locate kvs k + 1)
                right).getD (locate kvs k) dflt = left :=
            set_insertIdx_getD_left ch _ left right hidx
          have hreb := node_rebuild O k v
            (kvs.insertIdx (locate kvs k)
              ((kvsOf (ch.getD (locate kvs k) dflt)).getD (O / 2 - 1) (0, 0)))
            sz
            ((ch.set (locate kvs k) left).insertIdx (locate kvs k + 1) right)
            (locate kvs k) c'' (by omega) (by omega) (by omega)
            hall2sh hall2mx hshp2 hmax2 (by rw [hgetl]; exact hperm)
            (by rw [hgetl]; exact hsz2)
          refine ⟨.node (kvs.insertIdx (locate kvs k)
              ((kvsOf (ch.getD (locate kvs k) dflt)).getD (O / 2 - 1) (0, 0)))
              (sz + 1)
              (((ch.set (locate kvs k) left).insertIdx (locate kvs k + 1)
                right).set (locate kvs k) c''), ?_, ?_, ?_, ?_, ?_, ?_, ?_⟩
          · rw [insertNonFull]
            rw [if_pos hfull, heq]
            dsimp only
            rw [if_neg (by simpa using hdir)]
            rw [hgetl, hok, except_bind_ok]
            rfl
          · refine hreb.1.trans ?_
            rw [hinterleq]
            exact List.Perm.refl _
          · rfl
          · exact hreb.2.1
          · exact hreb.2.2.1
          · intro hz
            simp only [sizesOKb, Bool.and_eq_true, beq_iff_eq] at hz
            have hzc0 : sizesOKb (ch.getD (locate kvs k) dflt) = true :=
              sizesOKList_iff.mp hz.2 _ hcmem
            refine hreb.2.2.2.1 ?_ ?_ (hzi (hzimp hzc0).1)
            · rw [hkvs'len, hsum2, hsum1]
              push_cast
              rw [hz.1]
              omega
            · refine sizesOKList_iff.mpr fun x hx => ?_
              rcases mem_set_insertIdx hidx hx with rfl | rfl | h1
              · exact (hzimp hzc0).1
              · exact (hzimp hzc0).2
              · exact sizesOKList_iff.mp hz.2 x h1
          · intro hb
            simp only [balancedB, Bool.and_eq_true] at hb
            have hcbal : balancedB (ch.getD (locate kvs k) dflt) = true :=
              balancedList_iff.mp hb.1 _ hcmem
            obtain ⟨hbl2, hbr2, hhleq, hhreq⟩ := hbalsp hcbal
            have hgd : heightB (ch.getD (locate kvs k) dflt) = heightList ch :=
              sameH_iff.mp hb.2 _ hcmem
            have hbl3 : balancedList ((ch.set (locate kvs k) left).insertIdx
                (locate kvs k + 1) right) = true := by
              refine balancedList_iff.mpr fun x hx => ?_
              rcases mem_set_insertIdx hidx hx with rfl | rfl | h1
              · exact hbl2
              · exact hbr2
              · exact balancedList_iff.mp hb.1 x h1
            have hsh2 : sameH (heightList ch) ((ch.set (locate kvs k) left).insertIdx
                (locate kvs k + 1) right) = true := by
              refine sameH_iff.mpr fun x hx => ?_
              rcases mem_set_insertIdx hidx hx with rfl | rfl | h1
              · rw [hhleq, hgd]
              · rw [hhreq, hgd]
              · exact sameH_iff.mp hb.2 x h1
            have hne3 : ((ch.set (locate kvs k) left).insertIdx (locate kvs k + 1)
                right) ≠ [] := by
              intro hcon
              have := congrArg List.length hcon
              rw [hch'len] at this
              simp at this
            have hhl3 : heightList ((ch.set (locate kvs k) left).insertIdx
                (locate kvs k + 1) right) = heightList ch :=
              heightList_sameH hsh2 hne3
            obtain ⟨hbc2, hhc2⟩ := hhbih hbl2
            have h5 := hreb.2.2.2.2 hbl3 (by rw [hhl3]; exact hsh2) hbc2
              (by rw [hgetl]; exact hhc2)
            refine ⟨h5.1, ?_⟩
            rw [h5.2, hhl3]
            rfl
      · -- the child is not full; descend directly
        have hlenc : lenOf (ch.getD (locate kvs k) dflt) < O - 1 :=
          lt_of_le_of_ne (maxFill_lenOf hcm) hfull
        obtain ⟨c'', hok, hperm, hsz2, hshp2, hmax2, hzi, hhbih⟩ :=
          insertNonFull_spec O fuel (ch.getD (locate kvs k) dflt) k v hO hch hcs hcm hlenc
        have hreb := node_rebuild O k v kvs sz ch (locate kvs k) c'' hidx hchlen
          (by omega) hs'.2 hm'.2 hshp2 hmax2 hperm hsz2
        refine ⟨.node kvs (sz + 1) (ch.set (locate kvs k) c''), ?_, ?_, ?_, ?_, ?_, ?_, ?_⟩
        · rw [insertNonFull]
          rw [if_neg hfull]
          rw [hok, except_bind_ok]
          rfl
        · exact hreb.1
        · rfl
        · exact hreb.2.1
        · exact hreb.2.2.1
        · intro hz
          simp only [sizesOKb, Bool.and_eq_true, beq_iff_eq] at hz
          have hzc0 : sizesOKb (ch.getD (locate kvs k) dflt) = true :=
            sizesOKList_iff.mp hz.2 _ hcmem
          exact hreb.2.2.2.1 hz.1 hz.2 (hzi hzc0)
        · intro hb
          simp only [balancedB, Bool.and_eq_true] at hb
          have hcbal : balancedB (ch.getD (locate kvs k) dflt) = true :=
            balancedList_iff.mp hb.1 _ hcmem
          obtain ⟨hbc2, hhc2⟩ := hhbih hcbal
          have h5 := hreb.2.2.2.2 hb.1 hb.2 hbc2 hhc2
          refine ⟨h5.1, ?_⟩
          rw [h5.2]
          rfl
termination_by structural fuel

theorem countKey_perm_cons {t' t : BT} {k v : Int}
    (h : (toListB t').Perm ((k, v) :: toListB t)) :
    countKey t' k = countKey t k + 1 := by
  have h2 := (h.map Prod.fst).countP_eq (fun a => decide (a = k))
  simp only [countKey, keysOf]
  rw [h2]
  simp [List.countP_cons]

/-- C1: `insert` cannot fail on a well-shaped tree with room in every node,
but it never overwrites either: it always adds one more entry (even when the
key is already present), growing the stored size and the key multiset by
exactly one. -/
theorem c1_amended (O : Nat) (t : BT) (k v : Int) (hO : 3 ≤ O)
    (hs : shapeOKb t = true) (hm : maxFillB O t = true) :
    ∃ t', insertB O t k v = .ok t' ∧
      sizeQ t' = sizeQ t + 1 ∧
      (toListB t').Perm ((k, v) :: toListB t) ∧
      countKey t' k = countKey t k + 1 := by
  by_cases hfull : lenOf t = O - 1
  · obtain ⟨left, right, heq, hcontent, hsl, hsr, hml2, hmr2, hll, hlr,
      hhl, hhr, hszl, hzimp, hbalsp⟩ :=
      splitChild_facts O [] [t] 0 t rfl hO hs hm hfull
    have hroot :
        toListB (BT.node [(kvsOf t).getD (O / 2 - 1) (0, 0)] (sizeB t)
          [left, right]) = toListB t := by
      simp only [toListB, interleave]
      exact hcontent
    have hshape0 : shapeOKb (BT.node [(kvsOf t).getD (O / 2 - 1) (0, 0)] (sizeB t)
        [left, right]) = true := by
      simp [shapeOKb, shapeOKList, hsl, hsr]
    have hmax0 : maxFillB O (BT.node [(kvsOf t).getD (O / 2 - 1) (0, 0)] (sizeB t)
        [left, right]) = true := by
      simp only [maxFillB, maxFillList, hml2, hmr2, Bool.and_eq_true,
        decide_eq_true_eq]
      refine ⟨by simp; omega, by simp⟩
    have hlen0 : lenOf (BT.node [(kvsOf t).getD (O / 2 - 1) (0, 0)] (sizeB t)
        [left, right]) < O - 1 := by
      simp only [lenOf, kvsOf, List.length_cons, List.length_nil]
      omega
    have hheight0 : heightB (BT.node [(kvsOf t).getD (O / 2 - 1) (0, 0)] (sizeB t)
        [left, right]) < heightB t + 2 := by
      simp only [heightB, heightList]
      omega
    obtain ⟨t', hok, hperm, hsz, hshp, hmax3, hzi, _⟩ :=
      insertNonFull_spec O (heightB t + 2)
        (BT.node [(kvsOf t).getD (O / 2 - 1) (0, 0)] (sizeB t) [left, right])
        k v hO hheight0 hshape0 hmax0 hlen0
    have hperm' : (toListB t').Perm ((k, v) :: toListB t) := by
      rw [hroot] at hperm
      exact hperm
    refine ⟨t', ?_, ?_, hperm', countKey_perm_cons hperm'⟩
    · rw [insertB, if_pos hfull, heq]
      dsimp only
      exact hok
    · simpa [sizeQ, sizeB] using hsz
  · have hlt : lenOf t < O - 1 := lt_of_le_of_ne (maxFill_lenOf hm) hfull
    obtain ⟨t', hok, hperm, hsz, _, _, _, _⟩ :=
      insertNonFull_spec O (heightB t + 1) t k v hO (by omega) hs hm hlt
    refine ⟨t', ?_, ?_, hperm, countKey_perm_cons hperm⟩
    · rw [insertB, if_neg hfull]
      exact hok
    · simpa [sizeQ] using hsz

def c1w : BT := .node [(2, 0)] 3 [.leaf [(1, 0)] 1, .leaf [(3, 0)] 1]

theorem c1_amended_witness :
    ∃ t', insertB 3 c1w 2 9 = .ok t' ∧
      sizeQ t' = sizeQ c1w + 1 ∧
      (toListB t').Perm ((2, 9) :: toListB c1w) ∧
      countKey t' 2 = countKey c1w 2 + 1 :=
  c1_amended 3 c1w 2 9 (by decide) (by decide) (by decide)

end BTreeIntrusive
